import Mathlib

/-!
Verification of the Simple-Lstore storage engine core (src/lstore/{index,query,transaction}.py)
via a shallow embedding in Lean 4.

Conventions of the embedding:
* Python ints are `Int`, Python `None`-able column values are `Option Int`.
* Python byte strings (encoded RIDs) are `List Nat` (byte sequences) compared lexicographically,
  matching Python `bytes` comparison; RID strings are `String`.
* Python dicts keyed by insertion order are association lists with update-in-place semantics.
* Fallible code (Python exceptions such as KeyError) is modelled with `Option`.
* Mutable state (the index, the table, pages) is passed explicitly: each operation maps an
  input state to an output state together with its return value.
-/

namespace LStore

/-- Association-list read, modelling Python `d[k]` / `d.get(k)` for dicts. -/
def dictGet {α : Type} (l : List (Int × α)) (k : Int) : Option α :=
  (l.find? (fun p => p.1 == k)).map (fun p => p.2)

/-- Association-list write, modelling Python `d[k] = v`: overwrite in place if the key is
present, otherwise append (dicts preserve insertion order). -/
def dictSet {α : Type} (l : List (Int × α)) (k : Int) (v : α) : List (Int × α) :=
  if l.any (fun p => p.1 == k) then
    l.map (fun p => if p.1 == k then (k, v) else p)
  else
    l ++ [(k, v)]

/-- String-keyed association-list read (used for `page_directory`, keyed by RID strings). -/
def sdictGet {α : Type} (l : List (String × α)) (k : String) : Option α :=
  (l.find? (fun p => p.1 == k)).map (fun p => p.2)

/-- String-keyed association-list write. -/
def sdictSet {α : Type} (l : List (String × α)) (k : String) (v : α) : List (String × α) :=
  if l.any (fun p => p.1 == k) then
    l.map (fun p => if p.1 == k then (k, v) else p)
  else
    l ++ [(k, v)]

/-- Strict lexicographic order on byte sequences, as Python compares `bytes`. -/
def bytesLt : List Nat → List Nat → Bool
  | [], [] => false
  | [], _ :: _ => true
  | _ :: _, [] => false
  | a :: as, b :: bs => if a < b then true else if b < a then false else bytesLt as bs

/-- Non-strict lexicographic order on byte sequences. -/
def bytesLe (a b : List Nat) : Bool := !(bytesLt b a)

/-- Strict order on `(key, bytes)` pairs, as Python compares tuples `(int, bytes)`. -/
def pairLt (a b : Int × List Nat) : Bool :=
  if a.1 < b.1 then true else if b.1 < a.1 then false else bytesLt a.2 b.2

/-- Non-strict order on `(key, bytes)` pairs. -/
def pairLe (a b : Int × List Nat) : Bool := !(pairLt b a)

/-- `bisect.bisect_left(l, x)` on a sorted list: the number of elements strictly below `x`. -/
def bisect_left (l : List (Int × List Nat)) (x : Int × List Nat) : Nat :=
  (l.takeWhile (fun e => pairLt e x)).length

/-- `bisect.bisect_right(l, x)` on a sorted list: the number of elements `≤ x`. -/
def bisect_right (l : List (Int × List Nat)) (x : Int × List Nat) : Nat :=
  (l.takeWhile (fun e => pairLe e x)).length

/-- `bisect.insort(l, x)` on a sorted list: insert after all elements `≤ x`. -/
def insort (l : List (Int × List Nat)) (x : Int × List Nat) : List (Int × List Nat) :=
  l.takeWhile (fun e => pairLe e x) ++ x :: l.dropWhile (fun e => pairLe e x)

/-- Encode a RID string into its byte sequence, modelling `rid.encode()`. -/
def encodeRid (s : String) : List Nat := s.data.map Char.toNat

/-- Decode a byte sequence back into a RID string, modelling `b.decode()`. -/
def decodeRid (b : List Nat) : String := String.mk (b.map Char.ofNat)

/-- `Index._merge_sorted_lists(list1, list2)` (src/lstore/index.py): two-pointer merge of two
key-sorted pair lists, taking from the first list on ties. -/
def merge_sorted_lists {α : Type} : List (Int × α) → List (Int × α) → List (Int × α)
  | [], l2 => l2
  | l1, [] => l1
  | a :: l1, b :: l2 =>
    if a.1 ≤ b.1 then a :: merge_sorted_lists l1 (b :: l2)
    else b :: merge_sorted_lists (a :: l1) l2

/-- One step of a stable insertion sort by key: insert `x` before the first element whose key
is not below `x`'s. -/
def insertByKey (x : Int × List Nat) : List (Int × List Nat) → List (Int × List Nat)
  | [] => [x]
  | y :: ys => if y.1 < x.1 then y :: insertByKey x ys else x :: y :: ys

/-- Python `sorted(l, key=lambda p: p[0])`: a stable ascending sort by key. -/
def pySortedByKey (l : List (Int × List Nat)) : List (Int × List Nat) :=
  l.foldr insertByKey []

/-! ### B+ tree (class `BPlusTree` in src/lstore/index.py)

Nodes hold sorted keys; leaves pair each key with a value (an encoded RID), internal nodes
hold one more child than keys.  The Python leaf-sibling pointer `next` is used only by
range scans over non-primary columns and by `items`, none of which the claims exercise,
so the embedding keeps the tree shape without the sibling chain. -/

inductive BNode : Type
  | leaf (keys : List Int) (vals : List (List Nat))
  | internal (keys : List Int) (children : List BNode)

/-- `len(node.keys)`. -/
def BNode.keysLen : BNode → Nat
  | .leaf ks _ => ks.length
  | .internal ks _ => ks.length

mutual

/-- Height of a node (leaves at 0); used as the termination measure for descent. -/
def BNode.height : BNode → Nat
  | .leaf _ _ => 0
  | .internal _ cs => 1 + heightList cs

/-- Maximum height over a list of nodes. -/
def heightList : List BNode → Nat
  | [] => 0
  | c :: cs => Nat.max c.height (heightList cs)

end

/-- Reading inside bounds with a default yields a member of the list. -/
def getD_mem {α : Type} {l : List α} {i : Nat} (d : α) (h : i < l.length) : l.getD i d ∈ l := by
  rw [List.getD_eq_getElem?_getD, List.getElem?_eq_getElem h]
  exact List.getElem_mem h

/-- A successful `getLast?` yields a member of the list. -/
def mem_of_getLast?' {α : Type} {l : List α} {c : α} (h : l.getLast? = some c) : c ∈ l := by
  cases l with
  | nil => simp at h
  | cons a as =>
    rw [List.getLast?_eq_getLast _ (by simp)] at h
    have := List.getLast_mem (l := a :: as) (by simp)
    rwa [Option.some_inj.mp h] at this

/-- A successful `get?` yields a member of the list. -/
def mem_of_get?' {α : Type} {l : List α} {i : Nat} {c : α} (h : l.get? i = some c) : c ∈ l := by
  rw [List.get?_eq_getElem?] at h
  rcases List.getElem?_eq_some.mp h with ⟨hlt, he⟩
  rw [← he]
  exact List.getElem_mem hlt

/-- A member of a node list is no taller than the list's height bound. -/
def height_le_of_mem {c : BNode} {cs : List BNode} (h : c ∈ cs) : c.height ≤ heightList cs := by
  induction cs with
  | nil => cases h
  | cons d ds ih =>
    rcases List.mem_cons.mp h with rfl | hm
    · exact le_max_left _ _
    · exact le_trans (ih hm) (le_max_right _ _)

/-- Taking a prefix of a node list cannot increase its height bound. -/
def heightList_take_le (cs : List BNode) (n : Nat) : heightList (cs.take n) ≤ heightList cs := by
  induction cs generalizing n with
  | nil => simp
  | cons d ds ih =>
    cases n with
    | zero => simp [heightList]
    | succ m =>
      simp only [List.take_succ_cons, heightList]
      exact max_le_max (le_refl _) (ih m)

/-- Dropping a prefix of a node list cannot increase its height bound. -/
def heightList_drop_le (cs : List BNode) (n : Nat) : heightList (cs.drop n) ≤ heightList cs := by
  induction cs generalizing n with
  | nil => simp
  | cons d ds ih =>
    cases n with
    | zero => simp
    | succ m =>
      simp only [List.drop_succ_cons, heightList]
      exact le_trans (ih m) (le_max_right _ _)

/-- Elements of `List.set` come from the list or are the written element. -/
def mem_of_mem_set {α : Type} {a b : α} {l : List α} {i : Nat}
    (h : a ∈ l.set i b) : a = b ∨ a ∈ l := by
  induction l generalizing i with
  | nil => simp [List.set] at h
  | cons c cs ih =>
    cases i with
    | zero =>
      rcases List.mem_cons.mp h with rfl | hm
      · exact Or.inl rfl
      · exact Or.inr (List.mem_cons_of_mem _ hm)
    | succ j =>
      rcases List.mem_cons.mp h with rfl | hm
      · exact Or.inr (List.mem_cons_self _ _)
      · rcases ih hm with rfl | hm2
        · exact Or.inl rfl
        · exact Or.inr (List.mem_cons_of_mem _ hm2)

/-- Elements of `List.insertIdx` come from the list or are the inserted element. -/
def mem_of_mem_insertIdx {α : Type} {a b : α} {l : List α} {i : Nat}
    (h : a ∈ l.insertIdx i b) : a = b ∨ a ∈ l := by
  induction l generalizing i with
  | nil =>
    cases i with
    | zero => simp [List.insertIdx_zero] at h; exact Or.inl h
    | succ j => simp [List.insertIdx_succ_nil] at h
  | cons c cs ih =>
    cases i with
    | zero =>
      rw [List.insertIdx_zero] at h
      rcases List.mem_cons.mp h with rfl | hm
      · exact Or.inl rfl
      · exact Or.inr hm
    | succ j =>
      rw [List.insertIdx_succ_cons] at h
      rcases List.mem_cons.mp h with rfl | hm
      · exact Or.inr (List.mem_cons_self _ _)
      · rcases ih hm with rfl | hm2
        · exact Or.inl rfl
        · exact Or.inr (List.mem_cons_of_mem _ hm2)

/-- Reading any child (with the leaf default) stays strictly below the parent's height. -/
def height_getD_lt (ks : List Int) (cs : List BNode) (i : Nat) :
    (cs.getD i (BNode.leaf [] [])).height < (BNode.internal ks cs).height := by
  show (cs.getD i (BNode.leaf [] [])).height < 1 + heightList cs
  by_cases hi : i < cs.length
  · have hm : cs.getD i (BNode.leaf [] []) ∈ cs := getD_mem _ hi
    have := height_le_of_mem hm
    omega
  · rw [List.getD_eq_default _ _ (Nat.le_of_not_lt hi)]
    show BNode.height (BNode.leaf [] []) < 1 + heightList cs
    simp [BNode.height]

/-- `BPlusTree.split_child(parent, index)` (src/lstore/index.py): split the full child at
`index` of a parent with fields `(ks, cs)`; the left/right halves replace the child and the
split key is promoted into the parent's keys.  The parent is always an internal node in the
source, so it is passed as its `(keys, children)` fields and the new fields are returned. -/
def splitChildKC (ks : List Int) (cs : List BNode) (i : Nat) : List Int × List BNode :=
  match cs.getD i (BNode.leaf [] []) with
  | .leaf cks cvs =>
    let mid := cks.length / 2
    (ks.insertIdx i ((cks.drop mid).headD 0),
      (cs.set i (BNode.leaf (cks.take mid) (cvs.take mid))).insertIdx (i + 1)
        (BNode.leaf (cks.drop mid) (cvs.drop mid)))
  | .internal cks ccs =>
    let mid := cks.length / 2
    (ks.insertIdx i (cks.getD mid 0),
      (cs.set i (BNode.internal (cks.take mid) (ccs.take (mid + 1)))).insertIdx (i + 1)
        (BNode.internal (cks.drop (mid + 1)) (ccs.drop (mid + 1))))

/-- Children produced by a split stay strictly below the original parent's height. -/
def height_splitChildKC_getD_lt (ks : List Int) (cs : List BNode) (i j : Nat) :
    ((splitChildKC ks cs i).2.getD j (BNode.leaf [] [])).height <
      (BNode.internal ks cs).height := by
  show _ < 1 + heightList cs
  unfold splitChildKC
  cases hc : cs.getD i (BNode.leaf [] []) with
  | leaf cks cvs =>
    simp only
    by_cases hj :
        j < ((cs.set i (BNode.leaf (cks.take (cks.length / 2)) (cvs.take (cks.length / 2)))).insertIdx
          (i + 1) (BNode.leaf (cks.drop (cks.length / 2)) (cvs.drop (cks.length / 2)))).length
    · have hm := getD_mem (BNode.leaf [] []) hj
      rcases mem_of_mem_insertIdx hm with he | hm2
      · rw [he]; simp [BNode.height]
      · rcases mem_of_mem_set hm2 with he | hm3
        · rw [he]; simp [BNode.height]
        · have := height_le_of_mem hm3
          omega
    · rw [List.getD_eq_default _ _ (Nat.le_of_not_lt hj)]
      simp [BNode.height]
  | internal cks ccs =>
    have hin : i < cs.length := by
      by_contra hno
      rw [List.getD_eq_default _ _ (Nat.le_of_not_lt hno)] at hc
      exact BNode.noConfusion hc
    have hmemi : cs.getD i (BNode.leaf [] []) ∈ cs := getD_mem _ hin
    rw [hc] at hmemi
    have hch : (BNode.internal cks ccs).height ≤ heightList cs := height_le_of_mem hmemi
    have hch' : 1 + heightList ccs ≤ heightList cs := hch
    simp only
    by_cases hj :
        j < ((cs.set i (BNode.internal (cks.take (cks.length / 2)) (ccs.take (cks.length / 2 + 1)))).insertIdx
          (i + 1) (BNode.internal (cks.drop (cks.length / 2 + 1)) (ccs.drop (cks.length / 2 + 1)))).length
    · have hm := getD_mem (BNode.leaf [] []) hj
      rcases mem_of_mem_insertIdx hm with he | hm2
      · rw [he]
        show 1 + heightList (ccs.drop (cks.length / 2 + 1)) < 1 + heightList cs
        have := heightList_drop_le ccs (cks.length / 2 + 1)
        omega
      · rcases mem_of_mem_set hm2 with he | hm3
        · rw [he]
          show 1 + heightList (ccs.take (cks.length / 2 + 1)) < 1 + heightList cs
          have := heightList_take_le ccs (cks.length / 2 + 1)
          omega
        · have := height_le_of_mem hm3
          omega
    · rw [List.getD_eq_default _ _ (Nat.le_of_not_lt hj)]
      simp [BNode.height]

/-- `BPlusTree.insert_non_full(node, key, value)` (src/lstore/index.py): descend to the leaf,
splitting any full child (74 keys, order 75) before entering it; leaves insert at the
`bisect_left` position, internal nodes descend at the `bisect_right` position. -/
def BNode.insertNonFull : BNode → Int → List Nat → BNode
  | .leaf ks vs, k, v =>
    .leaf (ks.insertIdx ((ks.takeWhile (fun x => decide (x < k))).length) k)
      (vs.insertIdx ((ks.takeWhile (fun x => decide (x < k))).length) v)
  | .internal ks cs, k, v =>
    let i := (ks.takeWhile (fun x => decide (x ≤ k))).length
    if (cs.getD i (BNode.leaf [] [])).keysLen = 74 then
      let p := splitChildKC ks cs i
      let i2 := if p.1.getD i 0 ≤ k then i + 1 else i
      .internal p.1 (p.2.set i2 ((p.2.getD i2 (BNode.leaf [] [])).insertNonFull k v))
    else
      .internal ks (cs.set i ((cs.getD i (BNode.leaf [] [])).insertNonFull k v))
termination_by n _ _ => n.height
decreasing_by
  · exact height_splitChildKC_getD_lt ks cs _ _
  · exact height_getD_lt ks cs _

/-- `BPlusTree.max_key()` (src/lstore/index.py): descend along the last child to the
rightmost leaf and return its last key (`None` when that leaf is empty; an empty child
list would raise in Python and is modelled as `none`). -/
def BNode.maxKey : BNode → Option Int
  | .leaf ks _ => ks.getLast?
  | .internal _ cs =>
    match h : cs.getLast? with
    | some c => c.maxKey
    | none => none
termination_by n => n.height
decreasing_by
  have hm := mem_of_getLast?' h
  have := height_le_of_mem hm
  simp only [BNode.height]
  omega

/-- `BPlusTree.search(key)` (src/lstore/index.py): descend by `bisect_right` to the leaf that
would contain `key`; an out-of-range child access raises in Python, modelled as `none`. -/
def BNode.search : BNode → Int → Option BNode
  | .leaf ks vs, _ => some (.leaf ks vs)
  | .internal ks cs, k =>
    match h : cs.get? ((ks.takeWhile (fun x => decide (x ≤ k))).length) with
    | some c => c.search k
    | none => none
termination_by n _ => n.height
decreasing_by
  have hm := mem_of_get?' h
  have := height_le_of_mem hm
  simp only [BNode.height]
  omega

/-- The tree object: a root node plus the insertion counter `_size`. -/
structure BPlusTree : Type where
  root : BNode
  size : Nat

/-- A fresh `BPlusTree()` (order 75): an empty leaf root, size 0. -/
def BPlusTree.empty : BPlusTree := ⟨BNode.leaf [] [], 0⟩

/-- `BPlusTree.__setitem__(key, value)` (src/lstore/index.py): split a full root first (via a
new internal parent holding only the old root), then insert into the non-full tree and bump
`_size`. -/
def BPlusTree.setitem (t : BPlusTree) (k : Int) (v : List Nat) : BPlusTree :=
  let r :=
    if t.root.keysLen = 74 then
      let p := splitChildKC [] [t.root] 0
      BNode.internal p.1 p.2
    else t.root
  ⟨r.insertNonFull k v, t.size + 1⟩

/-- `BPlusTree.batch_insert(pairs)` (src/lstore/index.py): on a non-empty tree, raise
`ValueError` (modelled as `none`) when the first key of `pairs` is not strictly greater than
`max_key()`, inserting nothing; otherwise insert every pair in order.  Reading `pairs[0]` of
an empty batch, or comparing against a `None` max key, also raises (both unreachable from
the index's flush; modelled as `none` as well). -/
def BPlusTree.batch_insert (t : BPlusTree) (pairs : List (Int × List Nat)) : Option BPlusTree :=
  if 0 < t.size then
    match pairs, t.root.maxKey with
    | [], _ => none
    | _, none => none
    | (k, _) :: _, some m =>
      if k ≤ m then none
      else some (pairs.foldl (fun acc p => acc.setitem p.1 p.2) t)
  else some (pairs.foldl (fun acc p => acc.setitem p.1 p.2) t)

/-- `BPlusTree.has_key(key)` (src/lstore/index.py): leaf-local membership test; any exception
yields `False`. -/
def BPlusTree.has_key (t : BPlusTree) (k : Int) : Bool :=
  match t.root.search k with
  | some (.leaf ks _) =>
    let i := (ks.takeWhile (fun x => decide (x < k))).length
    decide (i < ks.length) && (ks.getD i 0 == k)
  | _ => false

/-- `BPlusTree.__getitem__(key)` for a point key (src/lstore/index.py): `bisect_left` within
the found leaf, `KeyError` (modelled as `none`) on mismatch. -/
def BPlusTree.getItem (t : BPlusTree) (k : Int) : Option (List Nat) :=
  match t.root.search k with
  | some (.leaf ks vs) =>
    let i := (ks.takeWhile (fun x => decide (x < k))).length
    if decide (i < ks.length) && (ks.getD i 0 == k) then some (vs.getD i []) else none
  | _ => none

mutual

/-- The key/value pairs stored in a node's leaves, left to right. -/
def BNode.contents : BNode → List (Int × List Nat)
  | .leaf ks vs => ks.zip vs
  | .internal _ cs => contentsList cs

/-- Concatenated contents of a list of nodes. -/
def contentsList : List BNode → List (Int × List Nat)
  | [] => []
  | c :: cs => c.contents ++ contentsList cs

end

/-- Structural well-formedness of a node: leaves pair keys with values one to one, internal
nodes hold exactly one more child than keys. -/
inductive BWF : BNode → Prop
  | leaf : ∀ ks vs, ks.length = vs.length → BWF (.leaf ks vs)
  | internal : ∀ ks cs, cs.length = ks.length + 1 → (∀ c ∈ cs, BWF c) → BWF (.internal ks cs)

/-! ### Records (class `Record` in src/lstore/table.py)

Modelled from the spec: `table.py` is not part of the given sources.  Spec section 3 fixes the
record fields (`rid`, `base_rid`, `indirection`, `start_time`, `schema_encoding`, `columns`)
and the constructor argument order is pinned by every call site in src/lstore/query.py
(`Record(base_rid, indirection, rid, start_time, schema_encoding, columns)`). -/

structure Record : Type where
  base_rid : String
  indirection : String
  rid : String
  start_time : Nat
  schema_encoding : List Nat
  columns : List (Option Int)
deriving DecidableEq

/-! ### Index (class `Index` in src/lstore/index.py)

Per column: a B+ tree, a sorted staging buffer `insert_cache`, an unsorted staging buffer
`unsorted_cache`, and `max_keys`; plus, for the primary-key column, `primary_key_cache`
(pk → encoded RID) and the binary-insertion-sorted list `sorted_records`. -/

structure IndexState : Type where
  pkCache : List (Int × List Nat)
  sortedRecords : List (Int × List Nat)
  unsortedCache : List (List (Int × List Nat))
  insertCache : List (List (Int × List Nat))
  maxKeys : List (Option Int)
  trees : List BPlusTree

/-- `Index.__init__` for a table with `n` columns: empty caches, one fresh B+ tree per
column. -/
def IndexState.fresh (n : Nat) : IndexState :=
  ⟨[], [], List.replicate n [], List.replicate n [], List.replicate n none,
    List.replicate n BPlusTree.empty⟩

/-- Slicing `range(0, len(cache), 5000)` of `Index._flush_cache_for_column`: cut a list into
successive batches of 5000. -/
def chunks5000 (l : List (Int × List Nat)) : List (List (Int × List Nat)) :=
  if l = [] then [] else l.take 5000 :: chunks5000 (l.drop 5000)
termination_by l.length
decreasing_by
  have : l.length ≠ 0 := fun h0 => (by assumption : ¬l = []) (List.length_eq_zero.mp h0)
  simp only [List.length_drop]
  omega

/-- The batch loop of `Index._flush_cache_for_column`: try `batch_insert` on each slice and,
on `ValueError`, fall back to per-key insertion for that slice. -/
def flushColTree (t : BPlusTree) (cache : List (Int × List Nat)) : BPlusTree :=
  (chunks5000 cache).foldl
    (fun acc batch =>
      match acc.batch_insert batch with
      | some t2 => t2
      | none => batch.foldl (fun a p => a.setitem p.1 p.2) acc)
    t

/-- `Index._flush_cache_for_column(col)` (src/lstore/index.py): sort the unsorted buffer once,
merge it into the sorted buffer, push the merged buffer into the column's tree in batches of
5000 (per-key fallback on unordered batches), refresh `max_keys[col]` from the last merged
key, and clear both buffers. -/
def flush_cache_for_column (s : IndexState) (col : Nat) : IndexState :=
  let s1 :=
    if (s.unsortedCache.getD col []).isEmpty then s
    else
      let su := pySortedByKey (s.unsortedCache.getD col [])
      let cache :=
        if (s.insertCache.getD col []).isEmpty then su
        else merge_sorted_lists (s.insertCache.getD col []) su
      { s with insertCache := s.insertCache.set col cache,
               unsortedCache := s.unsortedCache.set col [] }
  let cache := s1.insertCache.getD col []
  if cache.isEmpty then s1
  else
    { s1 with
      trees := s1.trees.set col (flushColTree (s1.trees.getD col BPlusTree.empty) cache),
      maxKeys := s1.maxKeys.set col
        (match cache.getLast? with
         | some last =>
           match s1.maxKeys.getD col none with
           | none => some last.1
           | some m => if m < last.1 then some last.1 else some m
         | none => s1.maxKeys.getD col none),
      insertCache := s1.insertCache.set col [] }

/-- The body of the per-column loop of `Index.add_record`: a non-null value is appended to the
column's unsorted staging buffer, then the column is flushed when the *sorted* buffer
`insert_cache[col]` holds at least `insert_cache_size = 50000` entries. -/
def stepAddCol (enc : List Nat) (s : IndexState) (col : Nat) (key? : Option Int) : IndexState :=
  match key? with
  | none => s
  | some k =>
    let s1 := { s with
      unsortedCache := s.unsortedCache.set col ((s.unsortedCache.getD col []) ++ [(k, enc)]) }
    if 50000 ≤ (s1.insertCache.getD col []).length then flush_cache_for_column s1 col else s1

/-- `for col, key in enumerate(record.columns)` of `Index.add_record`, with `i` the index of
the first remaining column. -/
def addRecLoop (enc : List Nat) : IndexState → Nat → List (Option Int) → IndexState
  | s, _, [] => s
  | s, i, k :: rest => addRecLoop enc (stepAddCol enc s i k) (i + 1) rest

/-- `Index.add_record(record)` (src/lstore/index.py): a non-null primary key updates
`primary_key_cache` and is binary-inserted into `sorted_records`; every non-null column value
is staged into that column's unsorted buffer (a record with no columns would raise on
`columns[0]` in Python; the embedding treats it as a null primary key). -/
def add_record (s : IndexState) (r : Record) : IndexState :=
  let enc := encodeRid r.rid
  let s1 :=
    match r.columns.headD none with
    | some pk =>
      { s with pkCache := dictSet s.pkCache pk enc,
               sortedRecords := insort s.sortedRecords (pk, enc) }
    | none => s
  addRecLoop enc s1 0 r.columns

/-- `Index.locate(column, value)` (src/lstore/index.py): primary-key hits are served from
`primary_key_cache` without flushing; otherwise only the target column is flushed and the
tree is consulted (`none` models both the `False` returns and a `KeyError`). -/
def locate (s : IndexState) (column : Nat) (value : Option Int) : IndexState × Option String :=
  match (if column = 0 then value.bind (dictGet s.pkCache) else none) with
  | some enc => (s, some (decodeRid enc))
  | none =>
    let s1 := flush_cache_for_column s column
    match value with
    | none => (s1, none)
    | some v => (s1, ((s1.trees.getD column BPlusTree.empty).getItem v).map decodeRid)

/-- `Index.exists(column, value)` (src/lstore/index.py): primary-key-cache fast path, then a
linear scan of both staging buffers, then a direct tree probe (flushing first only when some
staged entries remain).  A `None` value is never a dict key, never equal to a staged integer
key, and makes `has_key` raise internally, which `has_key` turns into `False`. -/
def existsKey (s : IndexState) (column : Nat) (value : Option Int) : IndexState × Bool :=
  if column == 0 &&
      (match value with | some v => (dictGet s.pkCache v).isSome | none => false) then
    (s, true)
  else if (s.unsortedCache.getD column []).any
      (fun p => match value with | some v => p.1 == v | none => false) then
    (s, true)
  else if (s.insertCache.getD column []).any
      (fun p => match value with | some v => p.1 == v | none => false) then
    (s, true)
  else if (s.unsortedCache.getD column []).isEmpty &&
      (s.insertCache.getD column []).isEmpty then
    (s, match value with
        | some v => (s.trees.getD column BPlusTree.empty).has_key v
        | none => false)
  else
    let s1 := flush_cache_for_column s column
    (s1, match value with
         | some v => (s1.trees.getD column BPlusTree.empty).has_key v
         | none => false)

/-- The `column == 0` fast path of `Index.locate_range(begin, end, column)`
(src/lstore/index.py): bisect `sorted_records` between `(begin, b"")` and `(end, b"\xff")`,
decode the slice into a key-to-RID mapping, and return `False` (here `none`) when empty.
This path performs no writes, so the state is returned untouched. -/
def locate_range_pk (s : IndexState) (lo hi : Int) : IndexState × Option (List (Int × String)) :=
  let left := bisect_left s.sortedRecords (lo, [])
  let right := bisect_right s.sortedRecords (hi, [255])
  let slice := (s.sortedRecords.drop left).take (right - left)
  let result := slice.map (fun p => (p.1, decodeRid p.2))
  (s, if result.isEmpty then none else some result)

/-! ### Table storage model

Modelled from the spec: `table.py`, `page.py`, `bufferpool` and `config.py` are not part of
the given sources.  Per spec sections 3, 4.1 and 6: pages are fixed-capacity append-only
containers addressed by `(path, offset)`, every RID in `page_directory` resolves to the record
carrying that RID, and the pagerange index is recoverable from the path.  The embedding
therefore keeps one record store keyed by RID (`directory`, collapsing
`page_directory` + bufferpool reads, and carrying the pagerange index that the source recovers
by path parsing), and per-pagerange base/tail lanes as lists of pages of RIDs.  The page
capacity, `PAGE_RANGE_SIZE` and `MERGE_THRESH` come from the missing `config.py` and are left
as parameters, as is `Table.merge` (spec 4.4 declares its implementation out of scope). -/

structure TableState : Type where
  idx : IndexState
  directory : List (String × (Nat × Record))
  basePages : List (List (List String))
  tailPages : List (List (List String))
  currentBaseRid : Nat
  currentTailRid : Nat
  unmerged : List Nat
  clock : Nat

/-- A freshly created table with `n` columns: one pagerange holding one empty base page and
one empty tail page, empty directory and index, both RID counters at zero. -/
def TableState.fresh (n : Nat) : TableState :=
  ⟨IndexState.fresh n, [], [[[]]], [[[]]], 0, 0, [0], 0⟩

/-- Append a record RID to a lane: into the lane's current (last) page while
`Page.has_capacity()`, else into a fresh page of the same lane. -/
def appendToLane (CAPACITY : Nat) (pages : List (List String)) (rid : String) :
    List (List String) :=
  match pages.getLast? with
  | some last =>
    if last.length < CAPACITY then pages.set (pages.length - 1) (last ++ [rid])
    else pages ++ [[rid]]
  | none => [[rid]]

/-- Append a tail record RID into the tail lane of pagerange `pr`.  (In the source the
no-capacity branch of `Query.delete` computes its new page path from
`len(tail_page_locations)-1`; the lane model records only the append itself.) -/
def writeTail (CAPACITY : Nat) (s : TableState) (pr : Nat) (rid : String) : TableState :=
  { s with tailPages := s.tailPages.set pr (appendToLane CAPACITY (s.tailPages.getD pr []) rid) }

/-- `pr_unmerged_updates[pr] += 1`, then `Table.merge(pr)` when the count reaches
`MERGE_THRESH`. -/
def bumpUnmerged (MERGE_THRESH : Nat) (mergeFn : TableState → Nat → TableState)
    (s : TableState) (pr : Nat) : TableState :=
  let s1 := { s with unmerged := s.unmerged.set pr ((s.unmerged.getD pr 0) + 1) }
  if MERGE_THRESH ≤ s1.unmerged.getD pr 0 then mergeFn s1 pr else s1

/-- Tail RID string `t<N>`. -/
def tailRid (n : Nat) : String := ("t") ++ toString n

/-- Base RID string `b<N>`. -/
def baseRid (n : Nat) : String := ("b") ++ toString n

/-- `Query.insert(*columns)` (src/lstore/query.py): fail when the primary key already exists;
otherwise mint base RID `b<N>`, add the record to the index, append it to the current base
page of the last pagerange (new page in the same pagerange while it holds fewer than
`PAGE_RANGE_SIZE` base pages, else a brand new pagerange with an empty first tail page),
register it in the page directory and bump the base-RID counter. -/
def Query.insert (CAPACITY PAGE_RANGE_SIZE : Nat) (s : TableState)
    (columns : List (Option Int)) : TableState × Bool :=
  let ex := existsKey s.idx 0 (columns.headD none)
  let s0 := { s with idx := ex.1 }
  if ex.2 then (s0, false)
  else
    let rid := baseRid s0.currentBaseRid
    let record : Record := ⟨rid, rid, rid, s0.clock, List.replicate columns.length 0, columns⟩
    let s1 := { s0 with idx := add_record s0.idx record }
    let pr := s1.basePages.length - 1
    let prPages := s1.basePages.getD pr []
    let s2 :=
      match prPages.getLast? with
      | some last =>
        if last.length < CAPACITY then
          let newBase := s1.basePages.set pr (prPages.set (prPages.length - 1) (last ++ [rid]))
          { s1 with basePages := newBase, directory := sdictSet s1.directory rid (pr, record) }
        else if prPages.length < PAGE_RANGE_SIZE then
          let newBase := s1.basePages.set pr (prPages ++ [[rid]])
          { s1 with basePages := newBase, directory := sdictSet s1.directory rid (pr, record) }
        else
          let newDir := sdictSet s1.directory rid (pr + 1, record)
          { s1 with basePages := s1.basePages ++ [[[rid]]], tailPages := s1.tailPages ++ [[[]]],
                    unmerged := s1.unmerged ++ [0], directory := newDir }
      | none =>
        { s1 with basePages := s1.basePages.set pr [[rid]],
                  directory := sdictSet s1.directory rid (pr, record) }
    ({ s2 with currentBaseRid := s2.currentBaseRid + 1 }, true)

/-- `Query.update(primary_key, *columns)` (src/lstore/query.py).  Locate the base record; on
a first update synthesize the "original copy" tail pinning the pre-update column values
(schema bit `i` set iff `columns[i]` is non-null) and append it to the pagerange's tail lane;
then build the merged tail record, point the base record's `indirection` at it and overwrite
the base record's `schema_encoding` in place, append the tail, register it, bump the tail-RID
counter and the pagerange's unmerged-update count (merging at `MERGE_THRESH`).  `none`
models a Python exception (missing directory entry). -/
def Query.update (CAPACITY MERGE_THRESH : Nat) (mergeFn : TableState → Nat → TableState)
    (s : TableState) (primary_key : Option Int) (columns : List (Option Int)) :
    Option (TableState × Bool) :=
  let lr := locate s.idx 0 primary_key
  let s0 := { s with idx := lr.1 }
  match lr.2 with
  | none => some (s0, false)
  | some baseRidStr =>
    match sdictGet s0.directory baseRidStr with
    | none => none
    | some (pr, base) =>
      let afterFirst : Option (TableState × Record) :=
        if base.indirection == base.rid then
          let origCopy : Record :=
            ⟨base.rid, base.rid, tailRid s0.currentTailRid, s0.clock,
              columns.map (fun c => if c.isSome then 1 else 0), base.columns⟩
          let s1 := { s0 with currentTailRid := s0.currentTailRid + 1 }
          let s2 := writeTail CAPACITY s1 pr origCopy.rid
          some ({ s2 with directory := sdictSet s2.directory origCopy.rid (pr, origCopy) },
            origCopy)
        else
          (sdictGet s0.directory base.indirection).map (fun e => (s0, e.2))
      match afterFirst with
      | none => none
      | some (s3, lastTail) =>
        let new_schema := (List.range columns.length).map
          (fun i => if (columns.getD i none).isSome then 1
                    else lastTail.schema_encoding.getD i 0)
        let new_cols := (List.range columns.length).map
          (fun i => match columns.getD i none with
                    | some v => some v
                    | none => lastTail.columns.getD i none)
        let record : Record :=
          ⟨base.rid, lastTail.rid, tailRid s3.currentTailRid, s3.clock, new_schema, new_cols⟩
        let updatedBase := { base with schema_encoding := new_schema, indirection := record.rid }
        let s4 := { s3 with directory := sdictSet s3.directory baseRidStr (pr, updatedBase) }
        let s5 := writeTail CAPACITY s4 pr record.rid
        let s6 := { s5 with directory := sdictSet s5.directory record.rid (pr, record),
                            currentTailRid := s5.currentTailRid + 1 }
        some (bumpUnmerged MERGE_THRESH mergeFn s6 pr, true)

/-- `Query.delete(primary_key)` (src/lstore/query.py): append a tombstone tail (all-null
columns, zero schema encoding) behind the newest tail, register it in the page directory
*and in the index*, bump the tail-RID counter and the unmerged-update count. -/
def Query.delete (CAPACITY MERGE_THRESH : Nat) (mergeFn : TableState → Nat → TableState)
    (s : TableState) (primary_key : Option Int) : Option (TableState × Bool) :=
  let lr := locate s.idx 0 primary_key
  let s0 := { s with idx := lr.1 }
  match lr.2 with
  | none => some (s0, false)
  | some baseRidStr =>
    match sdictGet s0.directory baseRidStr with
    | none => none
    | some (pr, base) =>
      match sdictGet s0.directory base.indirection with
      | none => none
      | some (_, lastTail) =>
        let record : Record :=
          ⟨base.rid, lastTail.rid, tailRid s0.currentTailRid, s0.clock,
            List.replicate base.schema_encoding.length 0,
            List.replicate base.columns.length none⟩
        let s1 := writeTail CAPACITY s0 pr record.rid
        let s2 := { s1 with directory := sdictSet s1.directory record.rid (pr, record),
                            idx := add_record s1.idx record,
                            currentTailRid := s1.currentTailRid + 1 }
        some (bumpUnmerged MERGE_THRESH mergeFn s2 pr, true)

/-- `[element for element, bit in zip(columns, projected_columns_index) if bit == 1]`. -/
def projectCols (cols : List (Option Int)) (proj : List Nat) : List (Option Int) :=
  ((cols.zip proj).filter (fun p => p.2 == 1)).map (fun p => p.1)

/-- `Query.select(search_key, search_key_index, projected_columns_index)`
(src/lstore/query.py): locate the RID (comma-joined list in general), and for each RID read
the base record, follow `indirection` once to the newest tail, and project its columns.
`none` models a Python exception (missing directory entry). -/
def Query.select (s : TableState) (search_key : Option Int) (search_key_index : Nat)
    (proj : List Nat) : Option (TableState × Option (List Record)) :=
  let lr := locate s.idx search_key_index search_key
  let s1 := { s with idx := lr.1 }
  match lr.2 with
  | none => some (s1, none)
  | some ridStr =>
    match (ridStr.splitOn (",")).foldlM
      (fun (acc : List Record) rid => do
        let eb ← sdictGet s1.directory rid
        let et ← sdictGet s1.directory eb.2.indirection
        let t := et.2
        let nr : Record := ⟨t.base_rid, t.indirection, t.rid, t.start_time, t.schema_encoding, projectCols t.columns proj⟩
        pure (acc ++ [nr])) [] with
    | none => none
    | some records => some (s1, if records.isEmpty then none else some records)

/-- The hop loop of `Query.select_version`: with `n` iterations remaining, read the record at
the current RID, step to its `indirection`, and stop early (returning the record just read)
when that next hop equals the record's `base_rid`; when iterations run out the record last
read is the result. -/
def svWalk (s : TableState) : Nat → String → Option Record
  | 0, _ => none
  | n + 1, rid => do
    let e ← sdictGet s.directory rid
    let r := e.2
    if r.indirection == r.base_rid then pure r
    else if n == 0 then pure r
    else svWalk s n r.indirection

/-- `Query.select_version(search_key, search_key_index, projected_columns_index,
relative_version)` (src/lstore/query.py): walk the indirection chain for
`abs(relative_version - 2)` hops from each located RID (early exit when the chain self-loops
at the base), then project the landed record.  `none` models the `None` return when no RID is
found, or a Python exception inside the walk. -/
def Query.select_version (s : TableState) (search_key : Option Int) (search_key_index : Nat)
    (proj : List Nat) (relative_version : Int) : Option (TableState × List Record) :=
  let lr := locate s.idx search_key_index search_key
  let s1 := { s with idx := lr.1 }
  match lr.2 with
  | none => none
  | some ridStr =>
    ((ridStr.splitOn (",")).foldlM
      (fun (acc : List Record) rid => do
        let r ← svWalk s1 ((relative_version - 2).natAbs) rid
        let nr : Record := ⟨r.base_rid, r.indirection, r.rid, r.start_time, r.schema_encoding, projectCols r.columns proj⟩
        pure (acc ++ [nr])) []).map (fun records => (s1, records))

/-! ### Transactions (class `Transaction` in src/lstore/transaction.py)

The lock manager itself lives in `two_phase_lock.py`, which is not part of the given sources;
per spec section 4.5 it is a non-blocking grant/deny table, so lock acquisition is abstracted
as a boolean grant function.  The queued operations are identified by their Python
`__name__`, which `run` probes with substring tests. -/

/-- Lock modes of the two-phase lock manager. -/
inductive LockMode : Type
  | shared
  | exclusive
deriving DecidableEq

/-- The eight public query methods a transaction can queue, identified as in
`Query.<name>.__name__`. -/
inductive QOp : Type
  | qinsert
  | qupdate
  | qdelete
  | qselect
  | qselect_version
  | qsum
  | qsum_version
  | qincrement
deriving DecidableEq

/-- The Python `__name__` of each query method. -/
def QOp.pyName : QOp → String
  | .qinsert => ("insert")
  | .qupdate => ("update")
  | .qdelete => ("delete")
  | .qselect => ("select")
  | .qselect_version => ("select_version")
  | .qsum => ("sum")
  | .qsum_version => ("sum_version")
  | .qincrement => ("increment")

/-- Python `needle in hay` on character lists: some suffix of `hay` starts with `needle`. -/
def charsIn (needle : List Char) : List Char → Bool
  | [] => needle.isEmpty
  | c :: rest => needle.isPrefixOf (c :: rest) || charsIn needle rest

/-- Python substring containment `needle in hay` on strings. -/
def strIn (needle hay : String) : Bool := charsIn needle.data hay.data

/-- Line 133 of src/lstore/transaction.py:
`any("update" in q.__name__ or "insert" in q.__name__ for q, table, args in self.queries)`. -/
def overall_exclusive (qs : List QOp) : Bool :=
  qs.any (fun q => strIn ("update") q.pyName || strIn ("insert") q.pyName)

/-- Lines 139-142 of src/lstore/transaction.py: the lock mode requested for one queued
operation, given the transaction-wide `overall_exclusive` flag. -/
def lock_mode_for (overallExcl : Bool) (q : QOp) : LockMode :=
  if overallExcl || (strIn ("update") q.pyName || strIn ("insert") q.pyName) then
    LockMode.exclusive
  else
    LockMode.shared

/-- The operations `Transaction.run` executes in the claims under study, with their
arguments. -/
inductive TxQuery : Type
  | ins (columns : List (Option Int))
  | upd (pk : Option Int) (columns : List (Option Int))
  | del (pk : Option Int)

/-- The Python `__name__` of a queued executable operation. -/
def TxQuery.name : TxQuery → String
  | .ins _ => ("insert")
  | .upd _ _ => ("update")
  | .del _ => ("delete")

/-- Execute one queued operation against the table (`none` = the query raised). -/
def TxQuery.exec (CAPACITY PAGE_RANGE_SIZE MERGE_THRESH : Nat)
    (mergeFn : TableState → Nat → TableState) (s : TableState) :
    TxQuery → Option (TableState × Bool)
  | .ins columns => some (Query.insert CAPACITY PAGE_RANGE_SIZE s columns)
  | .upd pk columns => Query.update CAPACITY MERGE_THRESH mergeFn s pk columns
  | .del pk => Query.delete CAPACITY MERGE_THRESH mergeFn s pk

/-- Everything `Transaction.abort` observably does, in order. -/
structure AbortResult : Type where
  state : TableState
  deleteCalls : List Int
  released : List String
  result : Bool × Option String

/-- `Transaction.abort(dupe_error)` (src/lstore/transaction.py): walk the change log in
reverse and call `Query.delete(key)` for **every** logged change (the loop never consults the
logged `is_insert` flag; a raising or failing delete is swallowed and the loop continues);
then, in a `finally`, release all held locks in reverse acquisition order; return
`(False, "dupe_error" or None)`.  `deleteCalls` records each attempted rollback delete. -/
def Transaction.abort (CAPACITY MERGE_THRESH : Nat) (mergeFn : TableState → Nat → TableState)
    (s : TableState) (dupe_error : Bool) (changes : List (Int × Bool))
    (held_locks : List String) : AbortResult :=
  let rolled := changes.reverse.foldl
    (fun (acc : TableState × List Int) ch =>
      match Query.delete CAPACITY MERGE_THRESH mergeFn acc.1 (some ch.1) with
      | some (s2, _) => (s2, acc.2 ++ [ch.1])
      | none => (acc.1, acc.2 ++ [ch.1]))
    (s, [])
  ⟨rolled.1, rolled.2, held_locks.reverse,
    (false, if dupe_error then some ("dupe_error") else none)⟩

/-- The rollback-log entry `(args[0], True)` recorded for a successful queued insert. -/
def insertChangeKey : TxQuery → Int × Bool
  | .ins cols => ((cols.headD none).getD 0, true)
  | .upd _ _ => (0, true)
  | .del _ => (0, true)

/-- One iteration of the per-operation loop of `Transaction.run`
(src/lstore/transaction.py): acquire locks (insert takes only the table lock; other
operations locate the target RID first, aborting on a miss, then take the hierarchical
locks), execute, abort on a `False` result — flagging `dupe_error` exactly when a queued
insert returned `False` — and log successful inserts/updates for rollback.  Lock acquisition
is abstracted by the grant function `grant`.  `inl` aborts the transaction, `inr` carries the
state and change log to the next operation. -/
def runStep (CAPACITY PAGE_RANGE_SIZE MERGE_THRESH : Nat)
    (mergeFn : TableState → Nat → TableState) (grant : TxQuery → Bool) (s : TableState)
    (changes : List (Int × Bool)) (held : List String) (q : TxQuery) :
    Sum AbortResult (TableState × List (Int × Bool)) :=
  if strIn ("insert") q.name then
    if !grant q then
      .inl (Transaction.abort CAPACITY MERGE_THRESH mergeFn s false changes held)
    else
      match q.exec CAPACITY PAGE_RANGE_SIZE MERGE_THRESH mergeFn s with
      | none => .inl (Transaction.abort CAPACITY MERGE_THRESH mergeFn s false changes held)
      | some (s2, res) =>
        if res then .inr (s2, changes ++ [insertChangeKey q])
        else .inl (Transaction.abort CAPACITY MERGE_THRESH mergeFn s2 true changes held)
  else
    match q with
    | .upd pk cols =>
      let lr := locate s.idx 0 pk
      let s1 := { s with idx := lr.1 }
      match lr.2 with
      | none => .inl (Transaction.abort CAPACITY MERGE_THRESH mergeFn s1 false changes held)
      | some _ =>
        if !grant q then
          .inl (Transaction.abort CAPACITY MERGE_THRESH mergeFn s1 false changes held)
        else
          match TxQuery.exec CAPACITY PAGE_RANGE_SIZE MERGE_THRESH mergeFn s1 (.upd pk cols) with
          | none => .inl (Transaction.abort CAPACITY MERGE_THRESH mergeFn s1 false changes held)
          | some (s2, res) =>
            if res then .inr (s2, changes ++ [(pk.getD 0, false)])
            else .inl (Transaction.abort CAPACITY MERGE_THRESH mergeFn s2 false changes held)
    | .del pk =>
      let lr := locate s.idx 0 pk
      let s1 := { s with idx := lr.1 }
      match lr.2 with
      | none => .inl (Transaction.abort CAPACITY MERGE_THRESH mergeFn s1 false changes held)
      | some _ =>
        if !grant q then
          .inl (Transaction.abort CAPACITY MERGE_THRESH mergeFn s1 false changes held)
        else
          match TxQuery.exec CAPACITY PAGE_RANGE_SIZE MERGE_THRESH mergeFn s1 (.del pk) with
          | none => .inl (Transaction.abort CAPACITY MERGE_THRESH mergeFn s1 false changes held)
          | some (s2, res) =>
            if res then .inr (s2, changes)
            else .inl (Transaction.abort CAPACITY MERGE_THRESH mergeFn s2 false changes held)
    | .ins _ => .inr (s, changes)

/-- The loop of `Transaction.run`: fold `runStep` over the queue; an exhausted queue commits
(`return self.commit(), None`), releasing held locks in reverse order. -/
def runLoop (CAPACITY PAGE_RANGE_SIZE MERGE_THRESH : Nat)
    (mergeFn : TableState → Nat → TableState) (grant : TxQuery → Bool) :
    TableState → List (Int × Bool) → List String → List TxQuery → AbortResult
  | s, _, held, [] => ⟨s, [], held.reverse, (true, none)⟩
  | s, changes, held, q :: rest =>
    match runStep CAPACITY PAGE_RANGE_SIZE MERGE_THRESH mergeFn grant s changes held q with
    | .inl ab => ab
    | .inr (s2, ch2) => runLoop CAPACITY PAGE_RANGE_SIZE MERGE_THRESH mergeFn grant s2 ch2 held rest

/-- `Transaction.run` over the queued operations (held-lock bookkeeping is carried as the
list of lock ids in acquisition order). -/
def Transaction.run (CAPACITY PAGE_RANGE_SIZE MERGE_THRESH : Nat)
    (mergeFn : TableState → Nat → TableState) (grant : TxQuery → Bool) (s : TableState)
    (queries : List TxQuery) : AbortResult :=
  runLoop CAPACITY PAGE_RANGE_SIZE MERGE_THRESH mergeFn grant s [] [] queries

/-- A trivial merge routine used to instantiate the `Table.merge` parameter in concrete
scenarios (the merge implementation is out of the spec's scope). -/
def mergeNoop : TableState → Nat → TableState := fun s _ => s

/-- A concrete two-column table holding one inserted row (pk 1, value 5), never updated:
the base record `b0` self-points and the index knows pk 1. -/
def exampleTable2 : TableState :=
  { idx :=
      { pkCache := [(1, [98, 48])],
        sortedRecords := [(1, [98, 48])],
        unsortedCache := [[((1 : Int), [98, 48])], [((5 : Int), [98, 48])]],
        insertCache := [[], []],
        maxKeys := [none, none],
        trees := [BPlusTree.empty, BPlusTree.empty] },
    directory := [(("b0"), (0, ⟨("b0"), ("b0"), ("b0"), 0, [0, 0], [some 1, some 5]⟩))],
    basePages := [[[("b0")]]],
    tailPages := [[[]]],
    currentBaseRid := 1,
    currentTailRid := 0,
    unmerged := [0],
    clock := 0 }

/-- The contents of a lane (base or tail) of a pagerange, reading its pages left to right:
this is the order in which records were appended. -/
def laneJoin (pages : List (List String)) : List String := pages.flatten

/-- A one-column index whose unsorted staging buffer already holds 50001 entries while the
sorted buffer `insert_cache[0]` is empty (the invariant state after any flush). -/
def c6state : IndexState :=
  ⟨[], [], [List.replicate 50001 ((0 : Int), ([] : List Nat))], [[]], [none], [BPlusTree.empty]⟩

/-- A one-column record with primary key 5. -/
def c6rec : Record := ⟨("b0"), ("b0"), ("b0"), 0, [0], [some 5]⟩

/-- A one-column index with one staged pair in each buffer and an empty B+ tree. -/
def c5state : IndexState :=
  ⟨[], [], [[((5 : Int), [1])]], [[((3 : Int), [0])]], [none], [BPlusTree.empty]⟩

/-! ## Theorems -/

/-- Sortedness by key (non-strict) of a pair list. -/
abbrev KeySorted {α : Type} (l : List (Int × α)) : Prop :=
  List.Sorted (fun a b : Int × α => a.1 ≤ b.1) l

theorem merge_sorted_lists_perm {α : Type} :
    ∀ l1 l2 : List (Int × α), (merge_sorted_lists l1 l2).Perm (l1 ++ l2)
  | [], l2 => by simp [merge_sorted_lists]
  | a :: l1, [] => by simp [merge_sorted_lists]
  | a :: l1, b :: l2 => by
    rw [merge_sorted_lists]
    by_cases hab : a.1 ≤ b.1
    · rw [if_pos hab]
      exact (merge_sorted_lists_perm l1 (b :: l2)).cons a
    · rw [if_neg hab]
      refine ((merge_sorted_lists_perm (a :: l1) l2).cons b).trans ?_
      exact (List.perm_middle).symm

theorem merge_sorted_lists_sorted {α : Type} :
    ∀ l1 l2 : List (Int × α), KeySorted l1 → KeySorted l2 →
      KeySorted (merge_sorted_lists l1 l2)
  | [], l2, _, h2 => by simpa [merge_sorted_lists] using h2
  | a :: l1, [], h1, _ => by simpa [merge_sorted_lists] using h1
  | a :: l1, b :: l2, h1, h2 => by
    rw [KeySorted, List.sorted_cons] at h1 h2
    rw [merge_sorted_lists]
    by_cases hab : a.1 ≤ b.1
    · rw [if_pos hab]
      rw [KeySorted, List.sorted_cons]
      constructor
      · intro x hx
        have hx2 := (merge_sorted_lists_perm l1 (b :: l2)).mem_iff.mp hx
        rcases List.mem_append.mp hx2 with hm | hm
        · exact h1.1 x hm
        · rcases List.mem_cons.mp hm with rfl | hm2
          · exact hab
          · exact le_trans hab (h2.1 x hm2)
      · exact merge_sorted_lists_sorted l1 (b :: l2) h1.2 (List.sorted_cons.mpr h2)
    · rw [if_neg hab]
      rw [KeySorted, List.sorted_cons]
      have hba : b.1 ≤ a.1 := le_of_not_le hab
      constructor
      · intro x hx
        have hx2 := (merge_sorted_lists_perm (a :: l1) l2).mem_iff.mp hx
        rcases List.mem_append.mp hx2 with hm | hm
        · rcases List.mem_cons.mp hm with rfl | hm2
          · exact hba
          · exact le_trans hba (h1.1 x hm2)
        · exact h2.1 x hm
      · exact merge_sorted_lists_sorted (a :: l1) l2 (List.sorted_cons.mpr h1) h2.2

theorem merge_sorted_lists_filter {α : Type} (k : Int) :
    ∀ l1 l2 : List (Int × α), KeySorted l1 →
      (merge_sorted_lists l1 l2).filter (fun p => p.1 == k) =
        l1.filter (fun p => p.1 == k) ++ l2.filter (fun p => p.1 == k)
  | [], l2, _ => by simp [merge_sorted_lists]
  | a :: l1, [], _ => by simp [merge_sorted_lists]
  | a :: l1, b :: l2, h1 => by
    rw [KeySorted, List.sorted_cons] at h1
    rw [merge_sorted_lists]
    by_cases hab : a.1 ≤ b.1
    · rw [if_pos hab]
      rw [List.filter_cons, List.filter_cons]
      by_cases hk : a.1 = k
      · simp only [hk, beq_self_eq_true, cond_true]
        rw [merge_sorted_lists_filter k l1 (b :: l2) h1.2]
        simp
      · have : (a.1 == k) = false := beq_eq_false_iff_ne.mpr hk
        simp only [this, cond_false]
        exact merge_sorted_lists_filter k l1 (b :: l2) h1.2
    · rw [if_neg hab]
      have hba : b.1 < a.1 := lt_of_not_le hab
      rw [List.filter_cons]
      by_cases hk : b.1 = k
      · -- every key in `a :: l1` is at least `a.1 > k`, so its filter is empty
        have hnil : (a :: l1).filter (fun p => p.1 == k) = [] := by
          rw [List.filter_eq_nil_iff]
          intro x hx
          have : a.1 ≤ x.1 := by
            rcases List.mem_cons.mp hx with rfl | hm
            · exact le_refl _
            · exact h1.1 x hm
          have : k < x.1 := by omega
          simp [beq_eq_false_iff_ne]
          omega
        simp only [hk, beq_self_eq_true, cond_true]
        rw [merge_sorted_lists_filter k (a :: l1) l2 (List.sorted_cons.mpr h1), hnil]
        simp [hk]
      · have hbk : (b.1 == k) = false := beq_eq_false_iff_ne.mpr hk
        simp only [hbk, cond_false]
        rw [merge_sorted_lists_filter k (a :: l1) l2 (List.sorted_cons.mpr h1)]
        rw [List.filter_cons]
        simp [hbk]

/-- C10: `Index._merge_sorted_lists` on two key-sorted pair lists returns a key-sorted list
holding exactly the multiset union of the two inputs (nothing dropped or duplicated), with
pairs of the first list placed before equal-keyed pairs of the second (witnessed by the
filter-at-each-key decomposition). -/
theorem C10_merge_sorted_lists_correct {α : Type} (l1 l2 : List (Int × α))
    (h1 : KeySorted l1) (h2 : KeySorted l2) :
    KeySorted (merge_sorted_lists l1 l2) ∧
    (merge_sorted_lists l1 l2).Perm (l1 ++ l2) ∧
    ∀ k : Int, (merge_sorted_lists l1 l2).filter (fun p => p.1 == k) =
      l1.filter (fun p => p.1 == k) ++ l2.filter (fun p => p.1 == k) :=
  ⟨merge_sorted_lists_sorted l1 l2 h1 h2, merge_sorted_lists_perm l1 l2,
    fun k => merge_sorted_lists_filter k l1 l2 h1⟩

/-- Witness for C10 at a concrete input with an inter-list key tie. -/
theorem C10_merge_sorted_lists_witness :
    KeySorted (merge_sorted_lists [((1 : Int), [10]), (2, [20])] [(1, [30]), (3, [40])]) ∧
    (merge_sorted_lists [((1 : Int), [10]), (2, [20])] [(1, [30]), (3, [40])]).Perm
      ([((1 : Int), [10]), (2, [20])] ++ [(1, [30]), (3, [40])]) ∧
    (merge_sorted_lists [((1 : Int), [10]), (2, [20])] [(1, [30]), (3, [40])]).filter
        (fun p => p.1 == 1) =
      [((1 : Int), [10]), (2, [20])].filter (fun p => p.1 == 1) ++
        [((1 : Int), [30]), (3, [40])].filter (fun p => p.1 == 1) := by
  have h := C10_merge_sorted_lists_correct (α := List Nat)
    [((1 : Int), [10]), (2, [20])] [(1, [30]), (3, [40])]
    (by decide) (by decide)
  exact ⟨h.1, h.2.1, h.2.2 1⟩

theorem bytesLt_nil_false (a : List Nat) : bytesLt a [] = false := by
  cases a <;> simp [bytesLt]

theorem bytesLt_asymm : ∀ a b : List Nat, bytesLt a b = true → bytesLt b a = false
  | [], [], h => by simp [bytesLt] at h
  | [], _ :: _, _ => by simp [bytesLt]
  | _ :: _, [], h => by simp [bytesLt] at h
  | a :: as, b :: bs, h => by
    rw [bytesLt] at h
    rw [bytesLt]
    by_cases hab : a < b
    · rw [if_neg (by omega), if_pos hab]
    · rw [if_neg hab] at h
      by_cases hba : b < a
      · rw [if_pos hba] at h
        exact absurd h (by simp)
      · rw [if_neg hba] at h
        rw [if_neg hba, if_neg hab]
        exact bytesLt_asymm as bs h

theorem pairLt_nil_right (e : Int × List Nat) (lo : Int) :
    pairLt e (lo, []) = decide (e.1 < lo) := by
  rw [pairLt]
  rcases lt_trichotomy e.1 lo with h | h | h
  · rw [if_pos h]; simp [h]
  · rw [if_neg (by omega), if_neg (by omega)]
    simp [bytesLt_nil_false]
    omega
  · rw [if_neg (by omega), if_pos h]
    simp
    omega

theorem pairLe_255_right (e : Int × List Nat) (hi : Int) (hb : bytesLt e.2 [255] = true) :
    pairLe e (hi, [255]) = decide (e.1 ≤ hi) := by
  rw [pairLe, pairLt]
  rcases lt_trichotomy e.1 hi with h | h | h
  · rw [if_neg (by simp; omega), if_pos (by simp [h])]
    simp
    omega
  · rw [if_neg (by simp; omega), if_neg (by simp; omega)]
    rw [bytesLt_asymm _ _ hb]
    simp
    omega
  · rw [if_pos (by simp [h])]
    simp
    omega

theorem takeWhile_congr' {α : Type} {p q : α → Bool} :
    ∀ l : List α, (∀ a ∈ l, p a = q a) → l.takeWhile p = l.takeWhile q
  | [], _ => rfl
  | a :: l, h => by
    rw [List.takeWhile_cons, List.takeWhile_cons, h a (List.mem_cons_self a l)]
    cases q a with
    | true =>
      simp only
      rw [takeWhile_congr' l (fun x hx => h x (List.mem_cons_of_mem a hx))]
    | false => simp

theorem take_takeWhile_length {α : Type} (p : α → Bool) :
    ∀ l : List α, l.take (l.takeWhile p).length = l.takeWhile p
  | [] => rfl
  | a :: l => by
    rw [List.takeWhile_cons]
    cases hpa : p a with
    | true => simp [take_takeWhile_length p l]
    | false => simp

theorem takeWhile_length_mono {α : Type} {p q : α → Bool}
    (himp : ∀ a, p a = true → q a = true) :
    ∀ l : List α, (l.takeWhile p).length ≤ (l.takeWhile q).length
  | [] => le_refl _
  | a :: l => by
    rw [List.takeWhile_cons, List.takeWhile_cons]
    cases hp : p a with
    | true =>
      rw [himp a hp]
      simpa using takeWhile_length_mono himp l
    | false =>
      cases hq : q a <;> simp

/-- On a key-strictly-sorted list whose keys are all at least `lo`, the `≤ hi` prefix is
exactly the `[lo, hi]` band. -/
theorem takeWhile_eq_filter_band (lo hi : Int) :
    ∀ t : List (Int × List Nat), List.Pairwise (fun a b => a.1 < b.1) t →
      (∀ p ∈ t, lo ≤ p.1) →
      t.takeWhile (fun p => decide (p.1 ≤ hi)) =
        t.filter (fun p => decide (lo ≤ p.1) && decide (p.1 ≤ hi))
  | [], _, _ => rfl
  | f :: t, hs, hlo => by
    have hsc := List.pairwise_cons.mp hs
    have hlof : lo ≤ f.1 := hlo f (List.mem_cons_self f t)
    rw [List.takeWhile_cons, List.filter_cons]
    by_cases hf : f.1 ≤ hi
    · have c1 : decide (f.1 ≤ hi) = true := by simp [hf]
      have c2 : (decide (lo ≤ f.1) && decide (f.1 ≤ hi)) = true := by
        simp only [Bool.and_eq_true, decide_eq_true_eq]
        exact ⟨hlof, hf⟩
      rw [if_pos c1, if_pos c2]
      congr 1
      exact takeWhile_eq_filter_band lo hi t hsc.2
        (fun p hp => le_trans hlof (le_of_lt (hsc.1 p hp)))
    · have c1 : decide (f.1 ≤ hi) = false := by simp [hf]
      have c2 : (decide (lo ≤ f.1) && decide (f.1 ≤ hi)) = false := by
        rw [c1, Bool.and_false]
      have c1' : ¬(decide (f.1 ≤ hi) = true) := by rw [c1]; exact Bool.false_ne_true
      have c2' : ¬((decide (lo ≤ f.1) && decide (f.1 ≤ hi)) = true) := by
        rw [c2]; exact Bool.false_ne_true
      rw [if_neg c1', if_neg c2']
      symm
      rw [List.filter_eq_nil_iff]
      intro p hp
      have := hsc.1 p hp
      simp
      omega

/-- The `[left:right]` slice taken by the column-0 path of `locate_range` equals the
inclusive key band `[lo, hi]`, on a key-strictly-sorted list of pairs whose RID bytes are
lexicographically below `b"\xff"`. -/
theorem slice_eq_filter_band (lo hi : Int) :
    ∀ l : List (Int × List Nat), List.Pairwise (fun a b => a.1 < b.1) l →
      (∀ p ∈ l, bytesLt p.2 [255] = true) →
      (l.drop (bisect_left l (lo, []))).take (bisect_right l (hi, [255]) - bisect_left l (lo, []))
        = l.filter (fun p => decide (lo ≤ p.1) && decide (p.1 ≤ hi))
  | [], _, _ => rfl
  | e :: t, hs, hb => by
    have hsc := List.pairwise_cons.mp hs
    have hbl : bisect_left (e :: t) (lo, []) =
        ((e :: t).takeWhile (fun p => decide (p.1 < lo))).length := by
      rw [bisect_left, takeWhile_congr' _ (fun a _ => pairLt_nil_right a lo)]
    have hbr : bisect_right (e :: t) (hi, [255]) =
        ((e :: t).takeWhile (fun p => decide (p.1 ≤ hi))).length := by
      rw [bisect_right, takeWhile_congr' _ (fun a ha => pairLe_255_right a hi (hb a ha))]
    rw [hbl, hbr]
    by_cases hlohi : lo ≤ hi
    · rw [List.takeWhile_cons, List.takeWhile_cons, List.filter_cons]
      by_cases he : e.1 < lo
      · have c1 : decide (e.1 < lo) = true := by simp [he]
        have c2 : decide (e.1 ≤ hi) = true := by simp only [decide_eq_true_eq]; omega
        have c3 : (decide (lo ≤ e.1) && decide (e.1 ≤ hi)) = false := by
          have : decide (lo ≤ e.1) = false := by simp only [decide_eq_false_iff_not]; omega
          rw [this, Bool.false_and]
        have c3' : ¬((decide (lo ≤ e.1) && decide (e.1 ≤ hi)) = true) := by
          rw [c3]; exact Bool.false_ne_true
        rw [if_pos c1, if_pos c2, if_neg c3']
        simp only [List.length_cons, List.drop_succ_cons, Nat.succ_sub_succ]
        have IH := slice_eq_filter_band lo hi t hsc.2
          (fun p hp => hb p (List.mem_cons_of_mem e hp))
        rw [bisect_left, bisect_right] at IH
        rw [takeWhile_congr' t (fun a _ => pairLt_nil_right a lo)] at IH
        rw [takeWhile_congr' t
          (fun a ha => pairLe_255_right a hi (hb a (List.mem_cons_of_mem e ha)))] at IH
        exact IH
      · have c1 : decide (e.1 < lo) = false := by simp [he]
        have c1' : ¬(decide (e.1 < lo) = true) := by rw [c1]; exact Bool.false_ne_true
        rw [if_neg c1']
        simp only [List.length_nil, List.drop_zero, Nat.sub_zero]
        by_cases hehi : e.1 ≤ hi
        · have c2 : decide (e.1 ≤ hi) = true := by simp [hehi]
          have c3 : (decide (lo ≤ e.1) && decide (e.1 ≤ hi)) = true := by
            simp only [Bool.and_eq_true, decide_eq_true_eq]
            omega
          rw [if_pos c2, if_pos c3]
          simp only [List.length_cons, List.take_succ_cons]
          congr 1
          rw [take_takeWhile_length]
          exact takeWhile_eq_filter_band lo hi t hsc.2
            (fun p hp => by have := hsc.1 p hp; omega)
        · have c2 : decide (e.1 ≤ hi) = false := by simp [hehi]
          have c3 : (decide (lo ≤ e.1) && decide (e.1 ≤ hi)) = false := by
            rw [c2, Bool.and_false]
          have c2' : ¬(decide (e.1 ≤ hi) = true) := by rw [c2]; exact Bool.false_ne_true
          have c3' : ¬((decide (lo ≤ e.1) && decide (e.1 ≤ hi)) = true) := by
            rw [c3]; exact Bool.false_ne_true
          rw [if_neg c2', if_neg c3']
          simp only [List.length_nil, List.take_zero]
          symm
          rw [List.filter_eq_nil_iff]
          intro p hp
          have := hsc.1 p hp
          simp
          omega
    · have hmono := takeWhile_length_mono
        (p := fun p : Int × List Nat => decide (p.1 ≤ hi))
        (q := fun p : Int × List Nat => decide (p.1 < lo))
        (fun a ha => by simp at ha ⊢; omega) (e :: t)
      rw [Nat.sub_eq_zero_of_le hmono, List.take_zero]
      symm
      rw [List.filter_eq_nil_iff]
      intro p _
      simp
      omega

/-- C7: `Index.locate_range(lo, hi, 0)` leaves the index state untouched (no flush, no tree
access) and returns exactly the pairs of `sorted_records` whose key lies in the inclusive
band `[lo, hi]`, decoded into a key-to-RID mapping (`none` models the `False` return on an
empty band).  Hypotheses: `sorted_records` is strictly key-sorted (primary keys are unique
and `bisect.insort` keeps the list ordered) and every stored RID byte string is
lexicographically below `b"\xff"` (RIDs are ASCII `b<N>`/`t<N>` strings). -/
theorem C7_locate_range_pk_frame_and_band (s : IndexState) (lo hi : Int)
    (hs : List.Pairwise (fun a b => a.1 < b.1) s.sortedRecords)
    (hb : ∀ p ∈ s.sortedRecords, bytesLt p.2 [255] = true) :
    locate_range_pk s lo hi =
      (s,
        if (s.sortedRecords.filter (fun p => decide (lo ≤ p.1) && decide (p.1 ≤ hi))).isEmpty
        then none
        else some ((s.sortedRecords.filter
          (fun p => decide (lo ≤ p.1) && decide (p.1 ≤ hi))).map
            (fun p => (p.1, decodeRid p.2)))) := by
  show (s, _) = _
  rw [Prod.mk.injEq]
  refine ⟨rfl, ?_⟩
  rw [show ((s.sortedRecords.drop (bisect_left s.sortedRecords (lo, []))).take
      (bisect_right s.sortedRecords (hi, [255]) - bisect_left s.sortedRecords (lo, [])))
      = s.sortedRecords.filter (fun p => decide (lo ≤ p.1) && decide (p.1 ≤ hi))
    from slice_eq_filter_band lo hi s.sortedRecords hs hb]
  rcases hh : s.sortedRecords.filter (fun p => decide (lo ≤ p.1) && decide (p.1 ≤ hi))
    with _ | ⟨x, xs⟩
  · simp [hh]
  · simp [hh]

/-- Witness for C7 at a concrete index state with keys 1, 3, 7. -/
theorem C7_locate_range_pk_witness :
    locate_range_pk ⟨[], [((1 : Int), [98, 48]), (3, [98, 49]), (7, [98, 50])], [], [], [], []⟩ 2 7 =
      (⟨[], [((1 : Int), [98, 48]), (3, [98, 49]), (7, [98, 50])], [], [], [], []⟩,
        some [((3 : Int), decodeRid [98, 49]), (7, decodeRid [98, 50])]) := by
  have h := C7_locate_range_pk_frame_and_band
    ⟨[], [((1 : Int), [98, 48]), (3, [98, 49]), (7, [98, 50])], [], [], [], []⟩ 2 7
    (by decide) (by decide)
  rw [h]
  rfl

theorem abort_rollback_trace (CAPACITY MERGE_THRESH : Nat)
    (mergeFn : TableState → Nat → TableState) :
    ∀ (l : List (Int × Bool)) (s : TableState) (acc : List Int),
      (l.foldl
        (fun (acc : TableState × List Int) ch =>
          match Query.delete CAPACITY MERGE_THRESH mergeFn acc.1 (some ch.1) with
          | some (s2, _) => (s2, acc.2 ++ [ch.1])
          | none => (acc.1, acc.2 ++ [ch.1]))
        (s, acc)).2 = acc ++ l.map (fun c => c.1)
  | [], s, acc => by simp
  | ch :: l, s, acc => by
    rw [List.foldl_cons]
    rcases hd : Query.delete CAPACITY MERGE_THRESH mergeFn s (some ch.1) with _ | ⟨s2, b⟩
    · simp only [hd]
      rw [abort_rollback_trace CAPACITY MERGE_THRESH mergeFn l s (acc ++ [ch.1])]
      simp
    · simp only [hd]
      rw [abort_rollback_trace CAPACITY MERGE_THRESH mergeFn l s2 (acc ++ [ch.1])]
      simp

/-- C4 counterexample: the claim says abort performs the rollback delete *only* for logged
inserts and leaves logged updates untouched.  On a change log holding a single **update**
entry for pk 1 over a one-row table, `abort` nevertheless calls `Query.delete(1)` — the
rollback loop never consults the logged `is_insert` flag — and the delete succeeds, growing
the tail lane and the tail-RID counter, so the table state is not left unchanged. -/
theorem C4_abort_counterexample :
    (Transaction.abort 10 10 mergeNoop exampleTable2 false [(1, false)] [("L1")]).deleteCalls
        = [1] ∧
    (Transaction.abort 10 10 mergeNoop exampleTable2 false [(1, false)] [("L1")]).state.currentTailRid
        = exampleTable2.currentTailRid + 1 ∧
    exampleTable2.currentTailRid = 0 := by
  refine ⟨by decide, ?_, rfl⟩
  decide

/-- C4 (amended): `Transaction.abort` walks the change log in reverse and calls
`Query.delete(pk)` for **every** logged change — updates as well as inserts, since the logged
`is_insert` flag is never consulted; a failing or raising rollback delete is swallowed and
the walk continues; all held locks are released in reverse acquisition order regardless of
what the rollback did; and the result is failure, carrying the duplicate-key marker exactly
when requested. -/
theorem C4_abort_amended (CAPACITY MERGE_THRESH : Nat)
    (mergeFn : TableState → Nat → TableState) (s : TableState) (dupe : Bool)
    (changes : List (Int × Bool)) (held : List String) :
    (Transaction.abort CAPACITY MERGE_THRESH mergeFn s dupe changes held).deleteCalls
        = (changes.map (fun c => c.1)).reverse ∧
    (Transaction.abort CAPACITY MERGE_THRESH mergeFn s dupe changes held).released
        = held.reverse ∧
    (Transaction.abort CAPACITY MERGE_THRESH mergeFn s dupe changes held).result
        = (false, if dupe then some ("dupe_error") else none) := by
  refine ⟨?_, rfl, rfl⟩
  show (changes.reverse.foldl _ (s, [])).2 = _
  rw [abort_rollback_trace CAPACITY MERGE_THRESH mergeFn changes.reverse s []]
  simp [List.map_reverse]

theorem qop_write_flag (q : QOp) :
    (strIn ("update") q.pyName || strIn ("insert") q.pyName)
      = decide (q = QOp.qinsert ∨ q = QOp.qupdate) := by
  cases q <;> decide

/-- C8: `Transaction.run` computes `overall_exclusive` as true iff some queued operation is
an insert or an update (the substring probe on `__name__` singles out exactly `insert` and
`update` among the eight query methods), and the per-operation lock mode escalates every
operation — reads included — to EXCLUSIVE when the flag is set, while non-insert/update
operations request SHARED when it is not. -/
theorem C8_overall_exclusive_lock_modes (qs : List QOp) :
    (overall_exclusive qs = true ↔ ∃ q ∈ qs, q = QOp.qinsert ∨ q = QOp.qupdate) ∧
    (overall_exclusive qs = true →
      ∀ q ∈ qs, lock_mode_for (overall_exclusive qs) q = LockMode.exclusive) ∧
    (overall_exclusive qs = false →
      ∀ q ∈ qs, q ≠ QOp.qinsert → q ≠ QOp.qupdate →
        lock_mode_for (overall_exclusive qs) q = LockMode.shared) := by
  refine ⟨?_, ?_, ?_⟩
  · rw [overall_exclusive, List.any_eq_true]
    constructor
    · rintro ⟨q, hq, hflag⟩
      rw [qop_write_flag] at hflag
      exact ⟨q, hq, of_decide_eq_true hflag⟩
    · rintro ⟨q, hq, hor⟩
      exact ⟨q, hq, by rw [qop_write_flag]; exact decide_eq_true hor⟩
  · intro hex q _
    rw [lock_mode_for, hex, Bool.true_or, if_pos rfl]
  · intro hex q hq hni hnu
    rw [lock_mode_for, hex, Bool.false_or, qop_write_flag]
    have : ¬(q = QOp.qinsert ∨ q = QOp.qupdate) := by
      rintro (rfl | rfl)
      · exact hni rfl
      · exact hnu rfl
    rw [decide_eq_false this]
    simp

/-- Witness for C8 on the queue [select, update]: the flag is set and even the pure read
requests an exclusive lock. -/
theorem C8_overall_exclusive_witness :
    lock_mode_for (overall_exclusive [QOp.qselect, QOp.qupdate]) QOp.qselect
      = LockMode.exclusive :=
  (C8_overall_exclusive_lock_modes [QOp.qselect, QOp.qupdate]).2.1 (by decide) QOp.qselect
    (by simp)

theorem dictGet_dictSet_self {α : Type} (l : List (Int × α)) (k : Int) (v : α) :
    dictGet (dictSet l k v) k = some v := by
  rw [dictGet, dictSet]
  by_cases hmem : l.any (fun p => p.1 == k)
  · rw [if_pos hmem]
    induction l with
    | nil => simp at hmem
    | cons a l ih =>
      rw [List.map_cons, List.find?_cons]
      by_cases ha : a.1 = k
      · rw [if_pos (by simp [ha])]
        simp
      · rw [if_neg (by simp [ha])]
        have : (a.1 == k) = false := by simp [ha]
        simp only [this]
        have hmem2 : l.any (fun p => p.1 == k) = true := by
          simp only [List.any_cons, this, Bool.false_or] at hmem
          exact hmem
        simpa using ih hmem2
  · rw [if_neg hmem]
    induction l with
    | nil => simp
    | cons a l ih =>
      rw [List.cons_append, List.find?_cons]
      have ha : (a.1 == k) = false := by
        by_contra hc
        exact hmem (by simp only [List.any_cons, hc]; simp)
      simp only [ha]
      exact ih (fun h2 => hmem (by simp only [List.any_cons, h2, Bool.or_true]))

theorem sdictGet_sdictSet_self {α : Type} (l : List (String × α)) (k : String) (v : α) :
    sdictGet (sdictSet l k v) k = some v := by
  rw [sdictGet, sdictSet]
  by_cases hmem : l.any (fun p => p.1 == k)
  · rw [if_pos hmem]
    induction l with
    | nil => simp at hmem
    | cons a l ih =>
      rw [List.map_cons, List.find?_cons]
      by_cases ha : a.1 = k
      · rw [if_pos (by simp [ha])]
        simp
      · rw [if_neg (by simp [ha])]
        have : (a.1 == k) = false := by simp [ha]
        simp only [this]
        have hmem2 : l.any (fun p => p.1 == k) = true := by
          simp only [List.any_cons, this, Bool.false_or] at hmem
          exact hmem
        simpa using ih hmem2
  · rw [if_neg hmem]
    induction l with
    | nil => simp
    | cons a l ih =>
      rw [List.cons_append, List.find?_cons]
      have ha : (a.1 == k) = false := by
        by_contra hc
        exact hmem (by simp only [List.any_cons, hc]; simp)
      simp only [ha]
      exact ih (fun h2 => hmem (by simp only [List.any_cons, h2, Bool.or_true]))

theorem sdictGet_sdictSet_ne {α : Type} (l : List (String × α)) (k k' : String) (v : α)
    (h : k ≠ k') : sdictGet (sdictSet l k v) k' = sdictGet l k' := by
  rw [sdictGet, sdictSet, sdictGet]
  by_cases hmem : l.any (fun p => p.1 == k)
  · rw [if_pos hmem]
    clear hmem
    induction l with
    | nil => simp
    | cons a l ih =>
      rw [List.map_cons, List.find?_cons, List.find?_cons]
      by_cases ha : a.1 = k
      · have h1 : (if a.1 == k then (k, v) else a) = (k, v) := by simp [ha]
        rw [h1]
        have h2 : ((k, v).1 == k') = false := by simp [h]
        have h3 : (a.1 == k') = false := by rw [ha]; exact beq_eq_false_iff_ne.mpr h
        simp only [h2, h3]
        exact ih
      · have h1 : (if a.1 == k then (k, v) else a) = a := by simp [ha]
        rw [h1]
        cases hak : (a.1 == k') with
        | true => simp
        | false => simp only; exact ih
  · rw [if_neg hmem]
    induction l with
    | nil =>
      have hkk : (k == k') = false := beq_eq_false_iff_ne.mpr h
      simp [List.find?, hkk]
    | cons a l ih =>
      rw [List.cons_append, List.find?_cons, List.find?_cons]
      cases hak : (a.1 == k') with
      | true => simp
      | false =>
        simp only
        exact ih (fun h2 => hmem (by simp only [List.any_cons, h2, Bool.or_true]))

/-- `getD` after `set` at the same in-range position. -/
theorem getD_set_self {α : Type} (l : List α) (i : Nat) (x d : α) (h : i < l.length) :
    (l.set i x).getD i d = x := by
  rw [List.getD_eq_getElem?_getD, List.getElem?_set_self h]
  rfl

/-- `getD` after `set` at a different position. -/
theorem getD_set_ne {α : Type} (l : List α) (i j : Nat) (x d : α) (h : i ≠ j) :
    (l.set i x).getD j d = l.getD j d := by
  rw [List.getD_eq_getElem?_getD, List.getElem?_set_ne h, ← List.getD_eq_getElem?_getD]

/-- Flushing a column never touches the primary-key cache or `sorted_records`. -/
theorem flush_pk_frame (s : IndexState) (col : Nat) :
    (flush_cache_for_column s col).pkCache = s.pkCache ∧
    (flush_cache_for_column s col).sortedRecords = s.sortedRecords := by
  rw [flush_cache_for_column]
  by_cases hu : (s.unsortedCache.getD col []).isEmpty
  · rw [if_pos hu]
    by_cases hc : (s.insertCache.getD col []).isEmpty
    · rw [if_pos hc]
      exact ⟨rfl, rfl⟩
    · rw [if_neg hc]
      exact ⟨rfl, rfl⟩
  · rw [if_neg hu]
    by_cases hc : ((s.insertCache.set col
        (if (s.insertCache.getD col []).isEmpty then pySortedByKey (s.unsortedCache.getD col [])
         else merge_sorted_lists (s.insertCache.getD col [])
           (pySortedByKey (s.unsortedCache.getD col [])))).getD col []).isEmpty
    · rw [if_pos hc]
      exact ⟨rfl, rfl⟩
    · rw [if_neg hc]
      exact ⟨rfl, rfl⟩

/-- The `some`-key branch of `stepAddCol`, spelled out. -/
theorem stepAddCol_some (enc : List Nat) (s : IndexState) (i : Nat) (key : Int) :
    stepAddCol enc s i (some key) =
      (if 50000 ≤ (s.insertCache.getD i []).length
       then flush_cache_for_column
         { s with unsortedCache := s.unsortedCache.set i ((s.unsortedCache.getD i []) ++ [(key, enc)]) } i
       else
         { s with unsortedCache := s.unsortedCache.set i ((s.unsortedCache.getD i []) ++ [(key, enc)]) }) :=
  rfl

/-- One step of the `add_record` column loop never touches the primary-key cache or
`sorted_records`. -/
theorem stepAddCol_pk_frame (enc : List Nat) (s : IndexState) (i : Nat) (k : Option Int) :
    (stepAddCol enc s i k).pkCache = s.pkCache ∧
    (stepAddCol enc s i k).sortedRecords = s.sortedRecords := by
  cases k with
  | none => exact ⟨rfl, rfl⟩
  | some key =>
    rw [stepAddCol_some]
    by_cases hc : 50000 ≤ ((s.insertCache).getD i []).length
    · rw [if_pos hc]
      exact flush_pk_frame _ i
    · rw [if_neg hc]
      exact ⟨rfl, rfl⟩

/-- The whole `add_record` column loop never touches the primary-key cache or
`sorted_records`. -/
theorem addRecLoop_pk_frame (enc : List Nat) :
    ∀ (cols : List (Option Int)) (s : IndexState) (i : Nat),
      (addRecLoop enc s i cols).pkCache = s.pkCache ∧
      (addRecLoop enc s i cols).sortedRecords = s.sortedRecords
  | [], s, i => ⟨rfl, rfl⟩
  | k :: rest, s, i => by
    rw [addRecLoop]
    have h1 := addRecLoop_pk_frame enc rest (stepAddCol enc s i k) (i + 1)
    have h2 := stepAddCol_pk_frame enc s i k
    exact ⟨h1.1.trans h2.1, h1.2.trans h2.2⟩

/-- `Index.locate(0, pk)` is served from the primary-key cache without any state change. -/
theorem locate_pk_hit (s : IndexState) (pk : Int) (enc : List Nat)
    (h : dictGet s.pkCache pk = some enc) : locate s 0 (some pk) = (s, some (decodeRid enc)) := by
  unfold locate
  have hsc : (if (0 : Nat) = 0 then (some pk).bind (dictGet s.pkCache) else none) = some enc := by
    rw [if_pos rfl, Option.some_bind, h]
  rw [hsc]

/-- `Index.exists(0, pk)` is served from the primary-key cache without any state change. -/
theorem existsKey_pk_hit (s : IndexState) (pk : Int) (enc : List Nat)
    (h : dictGet s.pkCache pk = some enc) : existsKey s 0 (some pk) = (s, true) := by
  unfold existsKey
  have hcond : (((0 : Nat) == 0) &&
      (match some pk with
       | some v => (dictGet s.pkCache v).isSome
       | none => false)) = true := by
    simp only [beq_self_eq_true, Bool.true_and]
    rw [h]
    rfl
  rw [if_pos hcond]

/-- `Index.add_record` on a record whose columns are all null changes nothing: the null
primary key skips the PK bookkeeping and null values are never staged. -/
theorem add_record_all_none (s : IndexState) (r : Record)
    (h : ∀ x ∈ r.columns, x = none) : add_record s r = s := by
  rw [add_record]
  have hhead : r.columns.headD none = none := by
    cases hc : r.columns with
    | nil => rfl
    | cons a t =>
      have := h a (by rw [hc]; exact List.mem_cons_self a t)
      rw [List.headD_cons]
      exact this
  rw [hhead]
  simp only
  have : ∀ (cols : List (Option Int)) (s1 : IndexState) (i : Nat),
      (∀ x ∈ cols, x = none) → addRecLoop (encodeRid r.rid) s1 i cols = s1 := by
    intro cols
    induction cols with
    | nil => intro s1 i _; rfl
    | cons k rest ih =>
      intro s1 i hall
      rw [addRecLoop]
      have hk : k = none := hall k (List.mem_cons_self k rest)
      rw [hk]
      show addRecLoop (encodeRid r.rid) s1 (i + 1) rest = s1
      exact ih s1 (i + 1) (fun x hx => hall x (List.mem_cons_of_mem k hx))
  exact this r.columns s 0 h

/-- C9: a successful `Query.delete(pk)` appends a tombstone tail whose columns are all null;
`Index.add_record` on that tombstone changes nothing (the null primary key skips
`primary_key_cache`/`sorted_records` and null values are never staged), so the whole index
state is untouched, `Index.locate(0, pk)` still answers the base record's RID and
`Index.exists(0, pk)` still answers true. -/
theorem C9_delete_preserves_index (CAPACITY MERGE_THRESH : Nat)
    (mergeFn : TableState → Nat → TableState) (s : TableState) (pk : Int) (enc : List Nat)
    (pr prL : Nat) (B L : Record)
    (hpk : dictGet s.idx.pkCache pk = some enc)
    (hdec : decodeRid enc = B.rid)
    (hdir : sdictGet s.directory B.rid = some (pr, B))
    (hind : sdictGet s.directory B.indirection = some (prL, L))
    (hprlen : pr < s.unmerged.length)
    (hth : s.unmerged.getD pr 0 + 1 < MERGE_THRESH) :
    Query.delete CAPACITY MERGE_THRESH mergeFn s (some pk) =
      some
        ({ s with
            tailPages := s.tailPages.set pr
              (appendToLane CAPACITY (s.tailPages.getD pr []) (tailRid s.currentTailRid)),
            directory := sdictSet s.directory (tailRid s.currentTailRid)
              (pr, ⟨B.rid, L.rid, tailRid s.currentTailRid, s.clock,
                List.replicate B.schema_encoding.length 0,
                List.replicate B.columns.length none⟩),
            currentTailRid := s.currentTailRid + 1,
            unmerged := s.unmerged.set pr (s.unmerged.getD pr 0 + 1) }, true) ∧
    (∀ s' : TableState,
      Query.delete CAPACITY MERGE_THRESH mergeFn s (some pk) = some (s', true) →
      s'.idx = s.idx ∧
      sdictGet s'.directory (tailRid s.currentTailRid) =
        some (pr, ⟨B.rid, L.rid, tailRid s.currentTailRid, s.clock,
          List.replicate B.schema_encoding.length 0, List.replicate B.columns.length none⟩) ∧
      locate s'.idx 0 (some pk) = (s'.idx, some B.rid) ∧
      existsKey s'.idx 0 (some pk) = (s'.idx, true)) := by
  have haddnone : add_record s.idx
      ⟨B.rid, L.rid, tailRid s.currentTailRid, s.clock,
        List.replicate B.schema_encoding.length 0, List.replicate B.columns.length none⟩
      = s.idx :=
    add_record_all_none _ _ (fun x hx => List.eq_of_mem_replicate hx)
  have hc : ¬(MERGE_THRESH ≤ s.unmerged.getD pr 0 + 1) := by omega
  have heq : Query.delete CAPACITY MERGE_THRESH mergeFn s (some pk) =
      some
        ({ s with
            tailPages := s.tailPages.set pr
              (appendToLane CAPACITY (s.tailPages.getD pr []) (tailRid s.currentTailRid)),
            directory := sdictSet s.directory (tailRid s.currentTailRid)
              (pr, ⟨B.rid, L.rid, tailRid s.currentTailRid, s.clock,
                List.replicate B.schema_encoding.length 0,
                List.replicate B.columns.length none⟩),
            currentTailRid := s.currentTailRid + 1,
            unmerged := s.unmerged.set pr (s.unmerged.getD pr 0 + 1) }, true) := by
    simp only [Query.delete, locate_pk_hit s.idx pk enc hpk, hdec, hdir, hind, writeTail,
      bumpUnmerged, haddnone, getD_set_self s.unmerged pr _ 0 hprlen, hc, if_false]
  refine ⟨heq, ?_⟩
  intro s' hs'
  rw [heq] at hs'
  have hs'' := (Option.some_inj.mp hs')
  have hstate := congrArg Prod.fst hs''
  simp only at hstate
  subst hstate
  refine ⟨rfl, ?_, ?_, ?_⟩
  · exact sdictGet_sdictSet_self _ _ _
  · rw [locate_pk_hit _ pk enc hpk, hdec]
  · exact existsKey_pk_hit _ pk enc hpk

/-- Witness for C9: deleting pk 1 from the concrete one-row table leaves the index intact. -/
theorem C9_delete_preserves_index_witness :
    ∃ s' : TableState,
      Query.delete 10 10 mergeNoop exampleTable2 (some 1) = some (s', true) ∧
      s'.idx = exampleTable2.idx ∧
      locate s'.idx 0 (some 1) = (s'.idx, some ("b0")) ∧
      existsKey s'.idx 0 (some 1) = (s'.idx, true) := by
  have h := C9_delete_preserves_index 10 10 mergeNoop exampleTable2 1 [98, 48] 0 0
    ⟨("b0"), ("b0"), ("b0"), 0, [0, 0], [some 1, some 5]⟩
    ⟨("b0"), ("b0"), ("b0"), 0, [0, 0], [some 1, some 5]⟩
    (by decide) (by decide) (by decide) (by decide) (by decide) (by decide)
  refine ⟨_, h.1, ?_⟩
  have h2 := h.2 _ h.1
  exact ⟨h2.1, h2.2.2.1, h2.2.2.2⟩

/-- A duplicate primary key (present in the primary-key cache) makes `Query.insert` return
`False` before any mutation: the returned state is exactly the input state. -/
theorem insert_duplicate_false (CAPACITY PAGE_RANGE_SIZE : Nat) (s : TableState) (pk : Int)
    (enc : List Nat) (cols : List (Option Int))
    (h : dictGet s.idx.pkCache pk = some enc) :
    Query.insert CAPACITY PAGE_RANGE_SIZE s (some pk :: cols) = (s, false) := by
  unfold Query.insert
  rw [List.headD_cons, existsKey_pk_hit s.idx pk enc h]
  rfl

/-- A successful insert of a record whose first column is `pk` leaves `pk` in the primary-key
cache, mapped to the freshly minted base RID. -/
theorem insert_success_pkCache (CAPACITY PAGE_RANGE_SIZE : Nat) (s s' : TableState)
    (cols : List (Option Int)) (pk : Int)
    (hhead : cols.headD none = some pk)
    (hins : Query.insert CAPACITY PAGE_RANGE_SIZE s cols = (s', true)) :
    dictGet s'.idx.pkCache pk = some (encodeRid (baseRid s.currentBaseRid)) := by
  simp only [Query.insert] at hins
  rw [hhead] at hins
  rcases hex : (existsKey s.idx 0 (some pk)).2 with _ | _
  case true =>
    rw [hex] at hins
    simp at hins
  case false =>
    rw [hex] at hins
    simp only [Bool.false_eq_true, if_false] at hins
    have hidx : s'.idx = add_record (existsKey s.idx 0 (some pk)).1
        ⟨baseRid s.currentBaseRid, baseRid s.currentBaseRid, baseRid s.currentBaseRid,
          s.clock, List.replicate cols.length 0, cols⟩ := by
      have := congrArg Prod.fst hins
      simp only at this
      rw [← this]
      split
      next =>
        split
        next => rfl
        next => split <;> rfl
      next => rfl
    rw [hidx, add_record]
    have hh2 : (⟨baseRid s.currentBaseRid, baseRid s.currentBaseRid,
        baseRid s.currentBaseRid, s.clock, List.replicate cols.length 0, cols⟩ :
        Record).columns.headD none = some pk := hhead
    rw [hh2]
    simp only
    rw [(addRecLoop_pk_frame _ _ _ _).1]
    exact dictGet_dictSet_self _ _ _

/-- Inside `Transaction.run`, a queued insert that returns `False` aborts the transaction
with the duplicate-key flag. -/
theorem run_single_insert_dupe (CAPACITY PAGE_RANGE_SIZE MERGE_THRESH : Nat)
    (mergeFn : TableState → Nat → TableState) (grant : TxQuery → Bool) (s : TableState)
    (pk : Int) (enc : List Nat) (cols : List (Option Int))
    (hpk : dictGet s.idx.pkCache pk = some enc)
    (hgrant : grant (TxQuery.ins (some pk :: cols)) = true) :
    (Transaction.run CAPACITY PAGE_RANGE_SIZE MERGE_THRESH mergeFn grant s
      [TxQuery.ins (some pk :: cols)]).result = (false, some ("dupe_error")) := by
  rw [Transaction.run, runLoop]
  have hname : strIn ("insert") (TxQuery.ins (some pk :: cols)).name = true := by
    show strIn ("insert") ("insert") = true
    decide
  have hstep : runStep CAPACITY PAGE_RANGE_SIZE MERGE_THRESH mergeFn grant s [] []
      (TxQuery.ins (some pk :: cols)) =
      Sum.inl (Transaction.abort CAPACITY MERGE_THRESH mergeFn s true [] []) := by
    rw [runStep, if_pos hname]
    simp only [hgrant, Bool.not_true, Bool.false_eq_true, if_false, TxQuery.exec,
      insert_duplicate_false CAPACITY PAGE_RANGE_SIZE s pk enc cols hpk]
  rw [hstep]
  rfl

/-- C3: `Query.insert` fails whenever the primary key `columns[0]` is already known to the
index, and in that case the table state is exactly unchanged (no index mutation, no page
write, no page-directory entry, no RID-counter bump); a successful insert records its key in
the primary-key cache (so the duplicate check is reachable); and a queued insert returning
`False` inside `Transaction.run` aborts the transaction with the duplicate-key flag. -/
theorem C3_duplicate_insert :
    (∀ (CAPACITY PAGE_RANGE_SIZE : Nat) (s : TableState) (pk : Int) (enc : List Nat)
        (cols : List (Option Int)),
      dictGet s.idx.pkCache pk = some enc →
      Query.insert CAPACITY PAGE_RANGE_SIZE s (some pk :: cols) = (s, false)) ∧
    (∀ (CAPACITY PAGE_RANGE_SIZE : Nat) (s s' : TableState) (cols : List (Option Int))
        (pk : Int),
      cols.headD none = some pk →
      Query.insert CAPACITY PAGE_RANGE_SIZE s cols = (s', true) →
      dictGet s'.idx.pkCache pk = some (encodeRid (baseRid s.currentBaseRid))) ∧
    (∀ (CAPACITY PAGE_RANGE_SIZE MERGE_THRESH : Nat)
        (mergeFn : TableState → Nat → TableState) (grant : TxQuery → Bool) (s : TableState)
        (pk : Int) (enc : List Nat) (cols : List (Option Int)),
      dictGet s.idx.pkCache pk = some enc →
      grant (TxQuery.ins (some pk :: cols)) = true →
      (Transaction.run CAPACITY PAGE_RANGE_SIZE MERGE_THRESH mergeFn grant s
        [TxQuery.ins (some pk :: cols)]).result = (false, some ("dupe_error"))) :=
  ⟨insert_duplicate_false,
    insert_success_pkCache,
    run_single_insert_dupe⟩

/-- Witness for C3: re-inserting pk 1 into the concrete one-row table fails and leaves the
state unchanged, and inside a transaction the failure carries the duplicate-key flag. -/
theorem C3_duplicate_insert_witness :
    Query.insert 10 16 exampleTable2 [some 1, some 7] = (exampleTable2, false) ∧
    (Transaction.run 10 16 10 mergeNoop (fun _ => true) exampleTable2
      [TxQuery.ins [some 1, some 7]]).result = (false, some ("dupe_error")) :=
  ⟨C3_duplicate_insert.1 10 16 exampleTable2 1 [98, 48] [some 7] (by decide),
    C3_duplicate_insert.2.2 10 16 10 mergeNoop (fun _ => true) exampleTable2 1 [98, 48]
      [some 7] (by decide) rfl⟩

theorem flush_lengths (s : IndexState) (col : Nat) :
    (flush_cache_for_column s col).unsortedCache.length = s.unsortedCache.length ∧
    (flush_cache_for_column s col).insertCache.length = s.insertCache.length ∧
    (flush_cache_for_column s col).trees.length = s.trees.length ∧
    (flush_cache_for_column s col).maxKeys.length = s.maxKeys.length := by
  rw [flush_cache_for_column]
  by_cases hu : (s.unsortedCache.getD col []).isEmpty
  · rw [if_pos hu]
    by_cases hc : (s.insertCache.getD col []).isEmpty
    · rw [if_pos hc]
      exact ⟨rfl, rfl, rfl, rfl⟩
    · rw [if_neg hc]
      refine ⟨rfl, ?_, ?_, ?_⟩ <;> simp [List.length_set]
  · rw [if_neg hu]
    by_cases hc : ((s.insertCache.set col
        (if (s.insertCache.getD col []).isEmpty then pySortedByKey (s.unsortedCache.getD col [])
         else merge_sorted_lists (s.insertCache.getD col [])
           (pySortedByKey (s.unsortedCache.getD col [])))).getD col []).isEmpty
    · rw [if_pos hc]
      refine ⟨?_, ?_, rfl, rfl⟩ <;> simp [List.length_set]
    · rw [if_neg hc]
      refine ⟨?_, ?_, ?_, ?_⟩ <;> simp [List.length_set]

theorem stepAddCol_lengths (enc : List Nat) (s : IndexState) (i : Nat) (k : Option Int) :
    (stepAddCol enc s i k).unsortedCache.length = s.unsortedCache.length ∧
    (stepAddCol enc s i k).insertCache.length = s.insertCache.length ∧
    (stepAddCol enc s i k).trees.length = s.trees.length ∧
    (stepAddCol enc s i k).maxKeys.length = s.maxKeys.length := by
  cases k with
  | none => exact ⟨rfl, rfl, rfl, rfl⟩
  | some key =>
    rw [stepAddCol_some]
    by_cases hc : 50000 ≤ ((s.insertCache).getD i []).length
    · rw [if_pos hc]
      have h := flush_lengths
        { s with unsortedCache := s.unsortedCache.set i ((s.unsortedCache.getD i []) ++ [(key, enc)]) } i
      refine ⟨?_, h.2.1, h.2.2.1, h.2.2.2⟩
      rw [h.1]
      simp [List.length_set]
    · rw [if_neg hc]
      refine ⟨?_, rfl, rfl, rfl⟩
      simp [List.length_set]

theorem flush_other_col (s : IndexState) (col c : Nat) (hne : c ≠ col) :
    (flush_cache_for_column s col).unsortedCache.getD c [] = s.unsortedCache.getD c [] ∧
    (flush_cache_for_column s col).insertCache.getD c [] = s.insertCache.getD c [] ∧
    (flush_cache_for_column s col).trees.getD c BPlusTree.empty
      = s.trees.getD c BPlusTree.empty ∧
    (flush_cache_for_column s col).maxKeys.getD c none = s.maxKeys.getD c none := by
  have hne' : col ≠ c := fun h => hne h.symm
  rw [flush_cache_for_column]
  by_cases hu : (s.unsortedCache.getD col []).isEmpty
  · rw [if_pos hu]
    by_cases hc : (s.insertCache.getD col []).isEmpty
    · rw [if_pos hc]
      exact ⟨rfl, rfl, rfl, rfl⟩
    · rw [if_neg hc]
      exact ⟨rfl, getD_set_ne _ _ _ _ _ hne', getD_set_ne _ _ _ _ _ hne',
        getD_set_ne _ _ _ _ _ hne'⟩
  · rw [if_neg hu]
    by_cases hc : ((s.insertCache.set col
        (if (s.insertCache.getD col []).isEmpty then pySortedByKey (s.unsortedCache.getD col [])
         else merge_sorted_lists (s.insertCache.getD col [])
           (pySortedByKey (s.unsortedCache.getD col [])))).getD col []).isEmpty
    · rw [if_pos hc]
      exact ⟨getD_set_ne _ _ _ _ _ hne', getD_set_ne _ _ _ _ _ hne', rfl, rfl⟩
    · rw [if_neg hc]
      refine ⟨getD_set_ne _ _ _ _ _ hne', ?_, getD_set_ne _ _ _ _ _ hne',
        getD_set_ne _ _ _ _ _ hne'⟩
      rw [getD_set_ne _ _ _ _ _ hne', getD_set_ne _ _ _ _ _ hne']

theorem stepAddCol_other (enc : List Nat) (s : IndexState) (i : Nat) (k : Option Int)
    (c : Nat) (hne : c ≠ i) :
    (stepAddCol enc s i k).unsortedCache.getD c [] = s.unsortedCache.getD c [] ∧
    (stepAddCol enc s i k).insertCache.getD c [] = s.insertCache.getD c [] ∧
    (stepAddCol enc s i k).trees.getD c BPlusTree.empty = s.trees.getD c BPlusTree.empty ∧
    (stepAddCol enc s i k).maxKeys.getD c none = s.maxKeys.getD c none := by
  have hne' : i ≠ c := fun h => hne h.symm
  cases k with
  | none => exact ⟨rfl, rfl, rfl, rfl⟩
  | some key =>
    rw [stepAddCol_some]
    by_cases hc : 50000 ≤ ((s.insertCache).getD i []).length
    · rw [if_pos hc]
      have h := flush_other_col
        { s with unsortedCache := s.unsortedCache.set i ((s.unsortedCache.getD i []) ++ [(key, enc)]) }
        i c hne
      refine ⟨?_, h.2.1, h.2.2.1, h.2.2.2⟩
      rw [h.1]
      exact getD_set_ne _ _ _ _ _ hne'
    · rw [if_neg hc]
      exact ⟨getD_set_ne _ _ _ _ _ hne', rfl, rfl, rfl⟩

theorem addRecLoop_other (enc : List Nat) :
    ∀ (cols : List (Option Int)) (s : IndexState) (i c : Nat), c < i →
      (addRecLoop enc s i cols).unsortedCache.getD c [] = s.unsortedCache.getD c [] ∧
      (addRecLoop enc s i cols).insertCache.getD c [] = s.insertCache.getD c [] ∧
      (addRecLoop enc s i cols).trees.getD c BPlusTree.empty
        = s.trees.getD c BPlusTree.empty ∧
      (addRecLoop enc s i cols).maxKeys.getD c none = s.maxKeys.getD c none
  | [], s, i, c, _ => ⟨rfl, rfl, rfl, rfl⟩
  | k :: rest, s, i, c, hci => by
    rw [addRecLoop]
    have h1 := addRecLoop_other enc rest (stepAddCol enc s i k) (i + 1) c (by omega)
    have h2 := stepAddCol_other enc s i k c (by omega)
    exact ⟨h1.1.trans h2.1, h1.2.1.trans h2.2.1, h1.2.2.1.trans h2.2.2.1,
      h1.2.2.2.trans h2.2.2.2⟩

theorem merge_sorted_lists_ne_nil {α : Type} (l1 l2 : List (Int × α)) (h : l1 ≠ []) :
    merge_sorted_lists l1 l2 ≠ [] := by
  intro hc
  have hlen := (merge_sorted_lists_perm l1 l2).length_eq
  rw [hc, List.length_append] at hlen
  have := List.length_pos.mpr h
  simp at hlen
  omega

/-- Flushing a column whose two staging buffers are both non-empty: the buffers are cleared
and the merged cache is pushed into the column's tree. -/
theorem flush_at_col_both (s : IndexState) (col : Nat)
    (hu : s.unsortedCache.getD col [] ≠ [])
    (hi : s.insertCache.getD col [] ≠ [])
    (hb1 : col < s.unsortedCache.length) (hb2 : col < s.insertCache.length)
    (hb3 : col < s.trees.length) :
    (flush_cache_for_column s col).unsortedCache.getD col [] = [] ∧
    (flush_cache_for_column s col).insertCache.getD col [] = [] ∧
    (flush_cache_for_column s col).trees.getD col BPlusTree.empty =
      flushColTree (s.trees.getD col BPlusTree.empty)
        (merge_sorted_lists (s.insertCache.getD col [])
          (pySortedByKey (s.unsortedCache.getD col []))) := by
  have hu0 : (s.unsortedCache.getD col []).isEmpty = false := List.isEmpty_eq_false.mpr hu
  have hi0 : (s.insertCache.getD col []).isEmpty = false := List.isEmpty_eq_false.mpr hi
  have hm0 : (merge_sorted_lists (s.insertCache.getD col [])
      (pySortedByKey (s.unsortedCache.getD col []))).isEmpty = false :=
    List.isEmpty_eq_false.mpr (merge_sorted_lists_ne_nil _ _ hi)
  rw [flush_cache_for_column]
  simp only [hu0, hi0, Bool.false_eq_true, if_false, getD_set_self _ col _ _ hb2, hm0]
  refine ⟨getD_set_self _ _ _ _ hb1, ?_, ?_⟩
  · exact getD_set_self _ _ _ _ (by rw [List.length_set]; exact hb2)
  · exact getD_set_self _ _ _ _ hb3

/-- The effect of the `add_record` column loop on the four per-column index components of a
column `c` covered by the record: a null value leaves the column untouched; a non-null value
is appended to the unsorted staging buffer; a flush into the B+ tree is triggered only by
the sorted buffer `insert_cache[c]` holding at least 50000 entries. -/
theorem addRecLoop_col_views (enc : List Nat) :
    ∀ (cols : List (Option Int)) (s : IndexState) (i c : Nat),
      i ≤ c → c - i < cols.length →
      c < s.unsortedCache.length → c < s.insertCache.length → c < s.trees.length →
      c < s.maxKeys.length →
      ((cols.getD (c - i) none = none →
        (addRecLoop enc s i cols).unsortedCache.getD c [] = s.unsortedCache.getD c [] ∧
        (addRecLoop enc s i cols).insertCache.getD c [] = s.insertCache.getD c [] ∧
        (addRecLoop enc s i cols).trees.getD c BPlusTree.empty
          = s.trees.getD c BPlusTree.empty ∧
        (addRecLoop enc s i cols).maxKeys.getD c none = s.maxKeys.getD c none) ∧
      (∀ key, cols.getD (c - i) none = some key →
        (s.insertCache.getD c []).length < 50000 →
        (addRecLoop enc s i cols).unsortedCache.getD c []
          = s.unsortedCache.getD c [] ++ [(key, enc)] ∧
        (addRecLoop enc s i cols).insertCache.getD c [] = s.insertCache.getD c [] ∧
        (addRecLoop enc s i cols).trees.getD c BPlusTree.empty
          = s.trees.getD c BPlusTree.empty ∧
        (addRecLoop enc s i cols).maxKeys.getD c none = s.maxKeys.getD c none) ∧
      (∀ key, cols.getD (c - i) none = some key →
        50000 ≤ (s.insertCache.getD c []).length →
        (addRecLoop enc s i cols).unsortedCache.getD c [] = [] ∧
        (addRecLoop enc s i cols).insertCache.getD c [] = [] ∧
        (addRecLoop enc s i cols).trees.getD c BPlusTree.empty =
          flushColTree (s.trees.getD c BPlusTree.empty)
            (merge_sorted_lists (s.insertCache.getD c [])
              (pySortedByKey (s.unsortedCache.getD c [] ++ [(key, enc)])))))
  | [], s, i, c, hic, hlt, _, _, _, _ => by simp at hlt
  | k :: rest, s, i, c, hic, hlt, hb1, hb2, hb3, hb4 => by
    by_cases hci : c = i
    · subst hci
      have hsub : c - c = 0 := by omega
      rw [hsub]
      refine ⟨?_, ?_, ?_⟩
      · intro hk
        rw [List.getD_cons_zero] at hk
        subst hk
        rw [addRecLoop]
        exact addRecLoop_other enc rest (stepAddCol enc s c none) (c + 1) c (by omega)
      · intro key hk hsmall
        rw [List.getD_cons_zero] at hk
        subst hk
        rw [addRecLoop]
        have hstep : stepAddCol enc s c (some key) =
            { s with unsortedCache := s.unsortedCache.set c ((s.unsortedCache.getD c []) ++ [(key, enc)]) } := by
          rw [stepAddCol_some, if_neg (by omega)]
        rw [hstep]
        have hup := addRecLoop_other enc rest
          { s with unsortedCache := s.unsortedCache.set c ((s.unsortedCache.getD c []) ++ [(key, enc)]) }
          (c + 1) c (by omega)
        exact ⟨hup.1.trans (getD_set_self _ _ _ _ hb1), hup.2.1, hup.2.2.1, hup.2.2.2⟩
      · intro key hk hbig
        rw [List.getD_cons_zero] at hk
        subst hk
        rw [addRecLoop]
        have hstep : stepAddCol enc s c (some key) =
            flush_cache_for_column
              { s with unsortedCache := s.unsortedCache.set c ((s.unsortedCache.getD c []) ++ [(key, enc)]) } c := by
          rw [stepAddCol_some, if_pos hbig]
        rw [hstep]
        have happ : ({ s with unsortedCache := s.unsortedCache.set c ((s.unsortedCache.getD c []) ++ [(key, enc)]) } : IndexState).unsortedCache.getD c []
            = s.unsortedCache.getD c [] ++ [(key, enc)] := getD_set_self _ _ _ _ hb1
        have hff := flush_at_col_both
          { s with unsortedCache := s.unsortedCache.set c ((s.unsortedCache.getD c []) ++ [(key, enc)]) } c
          (by rw [happ]; simp) (by intro hc0; rw [hc0] at hbig; simp at hbig)
          (by rw [List.length_set]; exact hb1) hb2 hb3
        rw [happ] at hff
        have hup := addRecLoop_other enc rest
          (flush_cache_for_column
            { s with unsortedCache := s.unsortedCache.set c ((s.unsortedCache.getD c []) ++ [(key, enc)]) } c)
          (c + 1) c (by omega)
        exact ⟨hup.1.trans hff.1, hup.2.1.trans hff.2.1, hup.2.2.1.trans hff.2.2⟩
    · have hic2 : i + 1 ≤ c := by omega
      rw [addRecLoop]
      have hlen := stepAddCol_lengths enc s i k
      have hother := stepAddCol_other enc s i k c hci
      have hrest := addRecLoop_col_views enc rest (stepAddCol enc s i k) (i + 1) c hic2
        (by simp at hlt; omega)
        (by rw [hlen.1]; exact hb1) (by rw [hlen.2.1]; exact hb2)
        (by rw [hlen.2.2.1]; exact hb3) (by rw [hlen.2.2.2]; exact hb4)
      have hidx : rest.getD (c - (i + 1)) none = (k :: rest).getD (c - i) none := by
        have : c - i = (c - (i + 1)) + 1 := by omega
        rw [this, List.getD_cons_succ]
      refine ⟨?_, ?_, ?_⟩
      · intro hk
        rw [hidx] at hrest
        have h := hrest.1 hk
        exact ⟨h.1.trans hother.1, h.2.1.trans hother.2.1, h.2.2.1.trans hother.2.2.1,
          h.2.2.2.trans hother.2.2.2⟩
      · intro key hk hsmall
        rw [hidx] at hrest
        have h := hrest.2.1 key hk (by rw [hother.2.1]; exact hsmall)
        refine ⟨h.1.trans ?_, h.2.1.trans hother.2.1, h.2.2.1.trans hother.2.2.1,
          h.2.2.2.trans hother.2.2.2⟩
        rw [hother.1]
      · intro key hk hbig
        rw [hidx] at hrest
        have h := hrest.2.2 key hk (by rw [hother.2.1]; exact hbig)
        refine ⟨h.1, h.2.1, h.2.2.trans ?_⟩
        rw [hother.1, hother.2.1, hother.2.2.1]

/-- C6 counterexample: the staging buffer `unsorted_cache[0]` grows to 50002 entries — far
past the ≈50,000 staging threshold — yet `add_record` flushes nothing: the column's B+ tree,
sorted buffer and `max_keys` are untouched and the staged entries stay in place, because the
flush trigger tests `insert_cache[0]` (empty here, as after every flush) rather than the
staged entries. -/
theorem C6_add_record_counterexample :
    (add_record c6state c6rec).trees = c6state.trees ∧
    (add_record c6state c6rec).insertCache = c6state.insertCache ∧
    (add_record c6state c6rec).maxKeys = c6state.maxKeys ∧
    ((add_record c6state c6rec).unsortedCache.getD 0 []).length = 50002 ∧
    50000 < ((add_record c6state c6rec).unsortedCache.getD 0 []).length := by
  have hstep : add_record c6state c6rec =
      { c6state with
        pkCache := [(5, encodeRid ("b0"))],
        sortedRecords := [(5, encodeRid ("b0"))],
        unsortedCache :=
          [List.replicate 50001 ((0 : Int), ([] : List Nat)) ++ [(5, encodeRid ("b0"))]] } :=
    rfl
  have hlen : ((add_record c6state c6rec).unsortedCache.getD 0 []).length = 50002 := by
    rw [hstep]
    show (List.replicate 50001 ((0 : Int), ([] : List Nat)) ++ [(5, encodeRid ("b0"))]).length
      = 50002
    rw [List.length_append, List.length_replicate]
    rfl
  refine ⟨by rw [hstep], by rw [hstep], by rw [hstep], hlen, ?_⟩
  rw [hlen]
  omega

/-- C6 (amended): `Index.add_record` appends each non-null column value with the record's RID
to that column's unsorted staging buffer, and for a non-null primary key also updates
`primary_key_cache` and binary-inserts into `sorted_records`; but the flush trigger tests the
*sorted* buffer `insert_cache[c]` against the 50,000 threshold — growth of the unsorted
staging buffer never triggers a flush, and a flush happens exactly when `insert_cache[c]`
already holds at least 50,000 entries, pushing the merged buffers into the column's
B+ tree. -/
theorem C6_add_record_amended (s : IndexState) (r : Record) (c : Nat)
    (hb1 : c < s.unsortedCache.length) (hb2 : c < s.insertCache.length)
    (hb3 : c < s.trees.length) (hb4 : c < s.maxKeys.length)
    (hc : c < r.columns.length) :
    ((∀ pk : Int, r.columns.headD none = some pk →
        (add_record s r).pkCache = dictSet s.pkCache pk (encodeRid r.rid) ∧
        (add_record s r).sortedRecords = insort s.sortedRecords (pk, encodeRid r.rid)) ∧
      (r.columns.headD none = none →
        (add_record s r).pkCache = s.pkCache ∧
        (add_record s r).sortedRecords = s.sortedRecords)) ∧
    (r.columns.getD c none = none →
      (add_record s r).unsortedCache.getD c [] = s.unsortedCache.getD c [] ∧
      (add_record s r).insertCache.getD c [] = s.insertCache.getD c [] ∧
      (add_record s r).trees.getD c BPlusTree.empty = s.trees.getD c BPlusTree.empty ∧
      (add_record s r).maxKeys.getD c none = s.maxKeys.getD c none) ∧
    (∀ k : Int, r.columns.getD c none = some k →
      (s.insertCache.getD c []).length < 50000 →
      (add_record s r).unsortedCache.getD c []
        = s.unsortedCache.getD c [] ++ [(k, encodeRid r.rid)] ∧
      (add_record s r).insertCache.getD c [] = s.insertCache.getD c [] ∧
      (add_record s r).trees.getD c BPlusTree.empty = s.trees.getD c BPlusTree.empty ∧
      (add_record s r).maxKeys.getD c none = s.maxKeys.getD c none) ∧
    (∀ k : Int, r.columns.getD c none = some k →
      50000 ≤ (s.insertCache.getD c []).length →
      (add_record s r).unsortedCache.getD c [] = [] ∧
      (add_record s r).insertCache.getD c [] = [] ∧
      (add_record s r).trees.getD c BPlusTree.empty =
        flushColTree (s.trees.getD c BPlusTree.empty)
          (merge_sorted_lists (s.insertCache.getD c [])
            (pySortedByKey (s.unsortedCache.getD c [] ++ [(k, encodeRid r.rid)])))) := by
  rcases hhead : r.columns.headD none with _ | pk
  · have hrw : add_record s r = addRecLoop (encodeRid r.rid) s 0 r.columns := by
      rw [add_record, hhead]
    have hv := addRecLoop_col_views (encodeRid r.rid) r.columns s 0 c (by omega)
      (by rw [Nat.sub_zero]; exact hc) hb1 hb2 hb3 hb4
    rw [Nat.sub_zero] at hv
    rw [hrw]
    refine ⟨⟨?_, ?_⟩, hv.1, hv.2.1, hv.2.2⟩
    · intro pk hpk
      exact absurd hpk (by simp)
    · intro _
      exact addRecLoop_pk_frame _ _ _ _
  · have hrw : add_record s r = addRecLoop (encodeRid r.rid)
        { s with pkCache := dictSet s.pkCache pk (encodeRid r.rid),
                 sortedRecords := insort s.sortedRecords (pk, encodeRid r.rid) } 0 r.columns := by
      rw [add_record, hhead]
    have hv := addRecLoop_col_views (encodeRid r.rid) r.columns
      { s with pkCache := dictSet s.pkCache pk (encodeRid r.rid),
               sortedRecords := insort s.sortedRecords (pk, encodeRid r.rid) } 0 c (by omega)
      (by rw [Nat.sub_zero]; exact hc) hb1 hb2 hb3 hb4
    rw [Nat.sub_zero] at hv
    rw [hrw]
    refine ⟨⟨?_, ?_⟩, hv.1, hv.2.1, hv.2.2⟩
    · intro pk2 hpk2
      have hinj : pk = pk2 := Option.some_inj.mp hpk2
      subst hinj
      exact ⟨(addRecLoop_pk_frame _ _ _ _).1, (addRecLoop_pk_frame _ _ _ _).2⟩
    · intro hnone
      exact absurd hnone (by simp)

/-- Witness for the amended C6 on a fresh one-column index: the value is staged, nothing is
flushed. -/
theorem C6_add_record_amended_witness :
    (add_record (IndexState.fresh 1) c6rec).unsortedCache.getD 0 []
      = (IndexState.fresh 1).unsortedCache.getD 0 [] ++ [(5, encodeRid ("b0"))] ∧
    (add_record (IndexState.fresh 1) c6rec).trees.getD 0 BPlusTree.empty
      = (IndexState.fresh 1).trees.getD 0 BPlusTree.empty ∧
    (add_record (IndexState.fresh 1) c6rec).pkCache
      = dictSet (IndexState.fresh 1).pkCache 5 (encodeRid ("b0")) := by
  have h := C6_add_record_amended (IndexState.fresh 1) c6rec 0 (by decide) (by decide)
    (by decide) (by decide) (by decide)
  have h2 := h.2.2.1 5 rfl (by decide)
  exact ⟨h2.1, h2.2.2.1, (h.1.1 5 rfl).1⟩

theorem appendToLane_ne_nil (CAPACITY : Nat) (pages : List (List String)) (rid : String) :
    appendToLane CAPACITY pages rid ≠ [] := by
  rw [appendToLane]
  cases hl : pages.getLast? with
  | none => simp
  | some last =>
    show (if last.length < CAPACITY then pages.set (pages.length - 1) (last ++ [rid])
      else pages ++ [[rid]]) ≠ []
    have hpne : pages ≠ [] := by
      intro h0
      rw [h0] at hl
      simp at hl
    by_cases hcap : last.length < CAPACITY
    · rw [if_pos hcap]
      intro hc
      have := congrArg List.length hc
      rw [List.length_set] at this
      simp at this
      exact hpne this
    · rw [if_neg hcap]
      simp

theorem join_set_last (rid : String) :
    ∀ (pages : List (List String)) (last : List String), pages.getLast? = some last →
      (pages.set (pages.length - 1) (last ++ [rid])).flatten = pages.flatten ++ [rid]
  | [], last, h => by simp at h
  | [x], last, h => by
    simp at h
    subst h
    simp
  | x :: y :: ys, last, h => by
    have hl : (y :: ys).getLast? = some last := by
      rw [← h]
      rfl
    have hlen : (x :: y :: ys).length - 1 = ((y :: ys).length - 1) + 1 := by
      simp
    rw [hlen]
    rw [List.set_cons_succ]
    rw [List.flatten_cons, List.flatten_cons, join_set_last rid (y :: ys) last hl]
    rw [List.append_assoc]

/-- Appending a RID through the page-capacity branch always appends it at the end of the
lane's record sequence. -/
theorem laneJoin_appendToLane (CAPACITY : Nat) (pages : List (List String)) (rid : String)
    (h : pages ≠ []) :
    laneJoin (appendToLane CAPACITY pages rid) = laneJoin pages ++ [rid] := by
  rw [appendToLane]
  cases hl : pages.getLast? with
  | none =>
    rw [List.getLast?_eq_getLast _ h] at hl
    cases hl
  | some last =>
    show laneJoin (if last.length < CAPACITY then pages.set (pages.length - 1) (last ++ [rid])
      else pages ++ [[rid]]) = laneJoin pages ++ [rid]
    by_cases hcap : last.length < CAPACITY
    · rw [if_pos hcap]
      exact join_set_last rid pages last hl
    · rw [if_neg hcap]
      rw [laneJoin, laneJoin, List.flatten_append]
      simp

/-- C1: `Query.update(pk, cols)` on a located base record `B`.  On a first update
(`B.indirection == B.rid`) it synthesizes the "original copy" tail — columns equal to `B`'s
current columns, schema bit `i` set iff `cols[i]` is non-null — and appends it to `B`'s
pagerange's tail lane; then (on every update) it builds the new tail `T` with
`base_rid = B.rid`, `indirection` = the newest prior tail's RID, merged columns
(`cols[i]` if non-null, else the prior tail's column `i`) and merged schema encoding
(1 where `cols[i]` is non-null, else the prior tail's bit), appends `T` to the tail lane,
and overwrites `B.indirection` with `T.rid` and `B.schema_encoding` with `T`'s encoding in
place.  The RID-distinctness hypotheses reflect the `b<N>`/`t<N>` naming. -/
theorem C1_update_chain (CAPACITY MERGE_THRESH : Nat)
    (mergeFn : TableState → Nat → TableState) (s : TableState) (pk : Int) (enc : List Nat)
    (pr : Nat) (B : Record) (cols : List (Option Int))
    (hpk : dictGet s.idx.pkCache pk = some enc)
    (hdec : decodeRid enc = B.rid)
    (hdir : sdictGet s.directory B.rid = some (pr, B))
    (hprt : pr < s.tailPages.length)
    (htne : s.tailPages.getD pr [] ≠ [])
    (hpru : pr < s.unmerged.length)
    (hth : s.unmerged.getD pr 0 + 1 < MERGE_THRESH)
    (hne1 : B.rid ≠ tailRid s.currentTailRid)
    (hne2 : B.rid ≠ tailRid (s.currentTailRid + 1))
    (hne3 : tailRid s.currentTailRid ≠ tailRid (s.currentTailRid + 1)) :
    (B.indirection = B.rid →
      ∃ s' : TableState,
        Query.update CAPACITY MERGE_THRESH mergeFn s (some pk) cols = some (s', true) ∧
        sdictGet s'.directory (tailRid s.currentTailRid) =
          some (pr, ⟨B.rid, B.rid, tailRid s.currentTailRid, s.clock,
            cols.map (fun c => if c.isSome then 1 else 0), B.columns⟩) ∧
        sdictGet s'.directory (tailRid (s.currentTailRid + 1)) =
          some (pr, ⟨B.rid, tailRid s.currentTailRid, tailRid (s.currentTailRid + 1), s.clock,
            (List.range cols.length).map (fun i => if (cols.getD i none).isSome then 1
              else (cols.map (fun c => if c.isSome then 1 else 0)).getD i 0),
            (List.range cols.length).map (fun i =>
              match cols.getD i none with
              | some v => some v
              | none => B.columns.getD i none)⟩) ∧
        sdictGet s'.directory B.rid =
          some (pr, { B with
            indirection := tailRid (s.currentTailRid + 1),
            schema_encoding := (List.range cols.length).map
              (fun i => if (cols.getD i none).isSome then 1
                else (cols.map (fun c => if c.isSome then 1 else 0)).getD i 0) }) ∧
        laneJoin (s'.tailPages.getD pr []) =
          laneJoin (s.tailPages.getD pr []) ++
            [tailRid s.currentTailRid, tailRid (s.currentTailRid + 1)]) ∧
    (∀ (prL : Nat) (L : Record),
      B.indirection ≠ B.rid →
      sdictGet s.directory B.indirection = some (prL, L) →
      ∃ s' : TableState,
        Query.update CAPACITY MERGE_THRESH mergeFn s (some pk) cols = some (s', true) ∧
        sdictGet s'.directory (tailRid s.currentTailRid) =
          some (pr, ⟨B.rid, L.rid, tailRid s.currentTailRid, s.clock,
            (List.range cols.length).map (fun i => if (cols.getD i none).isSome then 1
              else L.schema_encoding.getD i 0),
            (List.range cols.length).map (fun i =>
              match cols.getD i none with
              | some v => some v
              | none => L.columns.getD i none)⟩) ∧
        sdictGet s'.directory B.rid =
          some (pr, { B with
            indirection := tailRid s.currentTailRid,
            schema_encoding := (List.range cols.length).map
              (fun i => if (cols.getD i none).isSome then 1
                else L.schema_encoding.getD i 0) }) ∧
        laneJoin (s'.tailPages.getD pr []) =
          laneJoin (s.tailPages.getD pr []) ++ [tailRid s.currentTailRid]) := by
  have hc : ¬(MERGE_THRESH ≤ s.unmerged.getD pr 0 + 1) := by omega
  constructor
  · intro hfirst
    have hbeq : (B.indirection == B.rid) = true := by
      rw [hfirst]
      simp
    have heq : Query.update CAPACITY MERGE_THRESH mergeFn s (some pk) cols =
        some
          ({ s with
              directory := sdictSet (sdictSet (sdictSet s.directory
                  (tailRid s.currentTailRid)
                  (pr, ⟨B.rid, B.rid, tailRid s.currentTailRid, s.clock,
                    cols.map (fun c => if c.isSome then 1 else 0), B.columns⟩))
                B.rid
                (pr, { B with
                  indirection := tailRid (s.currentTailRid + 1),
                  schema_encoding := (List.range cols.length).map
                    (fun i => if (cols.getD i none).isSome then 1
                      else (cols.map (fun c => if c.isSome then 1 else 0)).getD i 0) }))
                (tailRid (s.currentTailRid + 1))
                (pr, ⟨B.rid, tailRid s.currentTailRid, tailRid (s.currentTailRid + 1), s.clock,
                  (List.range cols.length).map (fun i => if (cols.getD i none).isSome then 1
                    else (cols.map (fun c => if c.isSome then 1 else 0)).getD i 0),
                  (List.range cols.length).map (fun i =>
                    match cols.getD i none with
                    | some v => some v
                    | none => B.columns.getD i none)⟩),
              tailPages := s.tailPages.set pr
                (appendToLane CAPACITY
                  (appendToLane CAPACITY (s.tailPages.getD pr []) (tailRid s.currentTailRid))
                  (tailRid (s.currentTailRid + 1))),
              currentTailRid := s.currentTailRid + 1 + 1,
              unmerged := s.unmerged.set pr (s.unmerged.getD pr 0 + 1) }, true) := by
      simp only [Query.update, locate_pk_hit s.idx pk enc hpk, hdec, hdir, hbeq, writeTail,
        bumpUnmerged, getD_set_self s.tailPages pr _ [] hprt,
        getD_set_self s.unmerged pr _ 0 hpru, List.set_set, hc, if_false, if_true]
    refine ⟨_, heq, ?_, ?_, ?_, ?_⟩
    · rw [sdictGet_sdictSet_ne _ _ _ _ (Ne.symm hne3), sdictGet_sdictSet_ne _ _ _ _ hne1]
      exact sdictGet_sdictSet_self _ _ _
    · exact sdictGet_sdictSet_self _ _ _
    · rw [sdictGet_sdictSet_ne _ _ _ _ (Ne.symm hne2)]
      exact sdictGet_sdictSet_self _ _ _
    · show laneJoin ((s.tailPages.set pr _).getD pr []) = _
      rw [getD_set_self _ _ _ _ hprt]
      rw [laneJoin_appendToLane _ _ _ (appendToLane_ne_nil _ _ _),
        laneJoin_appendToLane _ _ _ htne]
      rw [List.append_assoc]
      rfl
  · intro prL L hnf hindir
    have hbeq : (B.indirection == B.rid) = false := by
      rw [beq_eq_false_iff_ne]
      exact hnf
    have heq : Query.update CAPACITY MERGE_THRESH mergeFn s (some pk) cols =
        some
          ({ s with
              directory := sdictSet (sdictSet s.directory
                B.rid
                (pr, { B with
                  indirection := tailRid s.currentTailRid,
                  schema_encoding := (List.range cols.length).map
                    (fun i => if (cols.getD i none).isSome then 1
                      else L.schema_encoding.getD i 0) }))
                (tailRid s.currentTailRid)
                (pr, ⟨B.rid, L.rid, tailRid s.currentTailRid, s.clock,
                  (List.range cols.length).map (fun i => if (cols.getD i none).isSome then 1
                    else L.schema_encoding.getD i 0),
                  (List.range cols.length).map (fun i =>
                    match cols.getD i none with
                    | some v => some v
                    | none => L.columns.getD i none)⟩),
              tailPages := s.tailPages.set pr
                (appendToLane CAPACITY (s.tailPages.getD pr []) (tailRid s.currentTailRid)),
              currentTailRid := s.currentTailRid + 1,
              unmerged := s.unmerged.set pr (s.unmerged.getD pr 0 + 1) }, true) := by
      simp only [Query.update, locate_pk_hit s.idx pk enc hpk, hdec, hdir, hindir, hbeq,
        writeTail, bumpUnmerged, getD_set_self s.tailPages pr _ [] hprt,
        getD_set_self s.unmerged pr _ 0 hpru, List.set_set, hc, Bool.false_eq_true, if_false,
        Option.map_some']
    refine ⟨_, heq, ?_, ?_, ?_⟩
    · exact sdictGet_sdictSet_self _ _ _
    · rw [sdictGet_sdictSet_ne _ _ _ _ (Ne.symm hne1)]
      exact sdictGet_sdictSet_self _ _ _
    · show laneJoin ((s.tailPages.set pr _).getD pr []) = _
      rw [getD_set_self _ _ _ _ hprt]
      exact laneJoin_appendToLane _ _ _ htne

/-- Witness for C1: the first update of pk 1 on the concrete one-row table appends the
original copy `t0` and the merged tail `t1` and swings the base record's pointers. -/
theorem C1_update_chain_witness :
    ∃ s' : TableState,
      Query.update 10 10 mergeNoop exampleTable2 (some 1) [none, some 9] = some (s', true) ∧
      sdictGet s'.directory (tailRid 0) =
        some (0, ⟨("b0"), ("b0"), tailRid 0, 0, [0, 1], [some 1, some 5]⟩) ∧
      laneJoin (s'.tailPages.getD 0 []) =
        laneJoin (exampleTable2.tailPages.getD 0 []) ++ [tailRid 0, tailRid 1] := by
  have h := (C1_update_chain 10 10 mergeNoop exampleTable2 1 [98, 48] 0
    ⟨("b0"), ("b0"), ("b0"), 0, [0, 0], [some 1, some 5]⟩ [none, some 9]
    (by decide) (by decide) (by decide) (by decide) (by decide) (by decide) (by decide)
    (by decide) (by decide) (by decide)).1 rfl
  obtain ⟨s', heq, hoc, _, _, hlane⟩ := h
  exact ⟨s', heq, hoc, hlane⟩

theorem contentsList_append : ∀ l1 l2 : List BNode,
    contentsList (l1 ++ l2) = contentsList l1 ++ contentsList l2
  | [], l2 => rfl
  | c :: l1, l2 => by
    rw [List.cons_append, contentsList, contentsList, contentsList_append l1 l2,
      List.append_assoc]

theorem contentsList_decompose (d : BNode) :
    ∀ (cs : List BNode) (i : Nat), i < cs.length →
      contentsList cs = contentsList (cs.take i) ++ (cs.getD i d).contents
        ++ contentsList (cs.drop (i + 1))
  | [], i, h => by simp at h
  | c :: cs, 0, _ => by
    simp [contentsList, List.getD_cons_zero]
  | c :: cs, i + 1, h => by
    rw [List.take_succ_cons, List.drop_succ_cons, List.getD_cons_succ]
    rw [contentsList, contentsList]
    rw [contentsList_decompose d cs i (by simpa using h)]
    simp [List.append_assoc]

theorem contentsList_set (d : BNode) :
    ∀ (cs : List BNode) (i : Nat) (a : BNode), i < cs.length →
      contentsList (cs.set i a) = contentsList (cs.take i) ++ a.contents
        ++ contentsList (cs.drop (i + 1))
  | [], i, a, h => by simp at h
  | c :: cs, 0, a, _ => by
    simp [contentsList, List.set_cons_zero]
  | c :: cs, i + 1, a, h => by
    rw [List.set_cons_succ, List.take_succ_cons, List.drop_succ_cons]
    rw [contentsList, contentsList_set d cs i a (by simpa using h), contentsList]
    simp [List.append_assoc]

theorem contentsList_set_insertIdx (d : BNode) (cs : List BNode) (i : Nat) (a b : BNode)
    (h : i < cs.length) :
    contentsList ((cs.set i a).insertIdx (i + 1) b) = contentsList (cs.take i)
      ++ a.contents ++ b.contents ++ contentsList (cs.drop (i + 1)) := by
  induction cs generalizing i with
  | nil => simp at h
  | cons c cs ih =>
    cases i with
    | zero =>
      rw [List.set_cons_zero, List.insertIdx_succ_cons, List.insertIdx_zero]
      simp [contentsList]
    | succ j =>
      rw [List.set_cons_succ, List.insertIdx_succ_cons, List.take_succ_cons,
        List.drop_succ_cons]
      rw [contentsList, ih j (by simpa using h), contentsList]
      simp [List.append_assoc]

/-- Splitting a well-formed child redistributes its key/value pairs without change. -/
theorem splitChildKC_contents (ks : List Int) (cs : List BNode) (i : Nat)
    (hi : i < cs.length) (hwf : ∀ c ∈ cs, BWF c) :
    contentsList (splitChildKC ks cs i).2 = contentsList cs := by
  have hmem : cs.getD i (BNode.leaf [] []) ∈ cs := getD_mem _ hi
  have hwfc := hwf _ hmem
  rw [splitChildKC]
  cases hch : cs.getD i (BNode.leaf [] []) with
  | leaf cks cvs =>
    rw [hch] at hwfc
    rcases hwfc with _ | ⟨_, _, hlen⟩
    case leaf hlen =>
      simp only
      rw [contentsList_set_insertIdx (BNode.leaf [] []) cs i _ _ hi]
      rw [contentsList_decompose (BNode.leaf [] []) cs i hi, hch]
      have hzip : (cks.take (cks.length / 2)).zip (cvs.take (cks.length / 2)) ++
          (cks.drop (cks.length / 2)).zip (cvs.drop (cks.length / 2)) = cks.zip cvs := by
        rw [← List.zip_append (by rw [List.length_take, List.length_take, hlen])]
        rw [List.take_append_drop, List.take_append_drop]
      show contentsList (cs.take i) ++ (cks.take (cks.length / 2)).zip (cvs.take (cks.length / 2))
          ++ (cks.drop (cks.length / 2)).zip (cvs.drop (cks.length / 2))
          ++ contentsList (cs.drop (i + 1))
        = contentsList (cs.take i) ++ cks.zip cvs ++ contentsList (cs.drop (i + 1))
      rw [List.append_assoc (contentsList (cs.take i)), hzip]
  | internal cks ccs =>
    simp only
    rw [contentsList_set_insertIdx (BNode.leaf [] []) cs i _ _ hi]
    rw [contentsList_decompose (BNode.leaf [] []) cs i hi, hch]
    have hj : contentsList (ccs.take (cks.length / 2 + 1)) ++
        contentsList (ccs.drop (cks.length / 2 + 1)) = contentsList ccs := by
      rw [← contentsList_append, List.take_append_drop]
    show contentsList (cs.take i) ++ contentsList (ccs.take (cks.length / 2 + 1))
        ++ contentsList (ccs.drop (cks.length / 2 + 1)) ++ contentsList (cs.drop (i + 1))
      = contentsList (cs.take i) ++ contentsList ccs ++ contentsList (cs.drop (i + 1))
    rw [List.append_assoc (contentsList (cs.take i)), hj]

theorem BWF_leaf_len {ks : List Int} {vs : List (List Nat)} (h : BWF (BNode.leaf ks vs)) :
    ks.length = vs.length := by
  cases h; assumption

theorem BWF_internal_len {ks : List Int} {cs : List BNode} (h : BWF (BNode.internal ks cs)) :
    cs.length = ks.length + 1 := by
  cases h; assumption

theorem BWF_internal_mem {ks : List Int} {cs : List BNode} (h : BWF (BNode.internal ks cs)) :
    ∀ c ∈ cs, BWF c := by
  cases h; assumption

theorem splitChildKC_len2 (ks : List Int) (cs : List BNode) (i : Nat) (hi : i < cs.length) :
    (splitChildKC ks cs i).2.length = cs.length + 1 := by
  rw [splitChildKC]
  cases hch : cs.getD i (BNode.leaf [] []) with
  | leaf cks cvs =>
    simp only
    rw [List.length_insertIdx _ _ (by rw [List.length_set]; omega), List.length_set]
  | internal cks ccs =>
    simp only
    rw [List.length_insertIdx _ _ (by rw [List.length_set]; omega), List.length_set]

theorem splitChildKC_len1 (ks : List Int) (cs : List BNode) (i : Nat) (hi : i ≤ ks.length) :
    (splitChildKC ks cs i).1.length = ks.length + 1 := by
  rw [splitChildKC]
  cases hch : cs.getD i (BNode.leaf [] []) with
  | leaf cks cvs =>
    simp only
    rw [List.length_insertIdx _ _ hi]
  | internal cks ccs =>
    simp only
    rw [List.length_insertIdx _ _ hi]

/-- Splitting a full (74-key) well-formed child keeps every child of the parent
well-formed. -/
theorem splitChildKC_wf (ks : List Int) (cs : List BNode) (i : Nat)
    (hi : i < cs.length) (hk : (cs.getD i (BNode.leaf [] [])).keysLen = 74)
    (hwf : ∀ c ∈ cs, BWF c) :
    ∀ c ∈ (splitChildKC ks cs i).2, BWF c := by
  have hwfc := hwf _ (getD_mem (BNode.leaf [] []) hi)
  rw [splitChildKC]
  cases hch : cs.getD i (BNode.leaf [] []) with
  | leaf cks cvs =>
    rw [hch] at hwfc
    have hlv : cks.length = cvs.length := BWF_leaf_len hwfc
    intro c hc
    simp only at hc
    rcases mem_of_mem_insertIdx hc with rfl | hc2
    · exact BWF.leaf _ _ (by rw [List.length_drop, List.length_drop, hlv])
    · rcases mem_of_mem_set hc2 with rfl | hc3
      · exact BWF.leaf _ _ (by rw [List.length_take, List.length_take, hlv])
      · exact hwf _ hc3
  | internal cks ccs =>
    rw [hch] at hwfc hk
    have hcl : ccs.length = cks.length + 1 := BWF_internal_len hwfc
    have hcwf : ∀ c ∈ ccs, BWF c := BWF_internal_mem hwfc
    have hk74 : cks.length = 74 := hk
    intro c hc
    simp only at hc
    rcases mem_of_mem_insertIdx hc with rfl | hc2
    · refine BWF.internal _ _ ?_ ?_
      · rw [List.length_drop, List.length_drop, hcl]
        omega
      · intro c2 hc2m
        exact hcwf _ (List.mem_of_mem_drop hc2m)
    · rcases mem_of_mem_set hc2 with rfl | hc3
      · refine BWF.internal _ _ ?_ ?_
        · rw [List.length_take, List.length_take, hcl]
          omega
        · intro c2 hc2m
          exact hcwf _ (List.mem_of_mem_take hc2m)
      · exact hwf _ hc3

/-- Inserting a key and its value at the same position of two parallel lists prepends the
pair to their zip, up to permutation. -/
theorem zip_insertIdx_perm {β : Type} :
    ∀ (ks : List Int) (vs : List β) (i : Nat) (k : Int) (v : β), i ≤ ks.length →
      ks.length = vs.length →
      ((ks.insertIdx i k).zip (vs.insertIdx i v)).Perm ((k, v) :: ks.zip vs)
  | ks, vs, 0, k, v, _, _ => by
    rw [List.insertIdx_zero, List.insertIdx_zero, List.zip_cons_cons]
  | [], _, i + 1, _, _, hi, _ => by simp at hi
  | _ :: _, [], _ + 1, _, _, _, hl => by simp at hl
  | a :: ks, b :: vs, i + 1, k, v, hi, hl => by
    rw [List.insertIdx_succ_cons, List.insertIdx_succ_cons, List.zip_cons_cons,
      List.zip_cons_cons]
    exact ((zip_insertIdx_perm ks vs i k v (by simpa using hi) (by simpa using hl)).cons
      (a, b)).trans (List.Perm.swap _ _ _)

/-- `insert_non_full` on a leaf: well-formedness is preserved and the new pair joins the
leaf's contents. -/
theorem insertNonFull_leaf_ok (ks : List Int) (vs : List (List Nat)) (k : Int)
    (v : List Nat) (hl : ks.length = vs.length) :
    BWF ((BNode.leaf ks vs).insertNonFull k v) ∧
    (((BNode.leaf ks vs).insertNonFull k v).contents).Perm
      ((k, v) :: (BNode.leaf ks vs).contents) := by
  have hi : (ks.takeWhile (fun x => decide (x < k))).length ≤ ks.length :=
    (List.takeWhile_sublist _).length_le
  have hiv : (ks.takeWhile (fun x => decide (x < k))).length ≤ vs.length := by omega
  rw [BNode.insertNonFull]
  constructor
  · exact BWF.leaf _ _ (by rw [List.length_insertIdx _ _ hi, List.length_insertIdx _ _ hiv, hl])
  · simp only [BNode.contents]
    exact zip_insertIdx_perm ks vs _ k v hi hl

/-- Replacing the middle block of a three-part concatenation by a permuted block with one
extra front element permutes the whole list accordingly. -/
theorem perm_sandwich {α : Type} {N X : List α} (A C : List α) (x : α)
    (h : N.Perm (x :: X)) : (A ++ N ++ C).Perm (x :: (A ++ X ++ C)) := by
  refine (List.Perm.append_right C (List.Perm.append_left A h)).trans ?_
  have e1 : (A ++ (x :: X)) ++ C = A ++ (x :: (X ++ C)) := by simp [List.append_assoc]
  have e2 : x :: (A ++ (X ++ C)) = x :: (A ++ X ++ C) := by rw [List.append_assoc]
  rw [e1, ← e2]
  exact List.perm_middle

/-- Unfolding equation of `insert_non_full` on an internal node, with the local bindings of
the source (`i`, the split result and the post-split child index) expanded. -/
theorem insertNonFull_internal_eq (ks : List Int) (cs : List BNode) (k : Int)
    (v : List Nat) :
    (BNode.internal ks cs).insertNonFull k v =
      (if (cs.getD ((ks.takeWhile (fun x => decide (x ≤ k))).length)
          (BNode.leaf [] [])).keysLen = 74 then
        BNode.internal (splitChildKC ks cs ((ks.takeWhile (fun x => decide (x ≤ k))).length)).1
          ((splitChildKC ks cs ((ks.takeWhile (fun x => decide (x ≤ k))).length)).2.set
            (if (splitChildKC ks cs ((ks.takeWhile (fun x => decide (x ≤ k))).length)).1.getD
                ((ks.takeWhile (fun x => decide (x ≤ k))).length) 0 ≤ k
              then (ks.takeWhile (fun x => decide (x ≤ k))).length + 1
              else (ks.takeWhile (fun x => decide (x ≤ k))).length)
            (((splitChildKC ks cs ((ks.takeWhile (fun x => decide (x ≤ k))).length)).2.getD
              (if (splitChildKC ks cs ((ks.takeWhile (fun x => decide (x ≤ k))).length)).1.getD
                  ((ks.takeWhile (fun x => decide (x ≤ k))).length) 0 ≤ k
                then (ks.takeWhile (fun x => decide (x ≤ k))).length + 1
                else (ks.takeWhile (fun x => decide (x ≤ k))).length)
              (BNode.leaf [] [])).insertNonFull k v))
      else
        BNode.internal ks (cs.set ((ks.takeWhile (fun x => decide (x ≤ k))).length)
          ((cs.getD ((ks.takeWhile (fun x => decide (x ≤ k))).length)
            (BNode.leaf [] [])).insertNonFull k v))) := by
  rw [BNode.insertNonFull]

/-- `insert_non_full` on any well-formed node: well-formedness is preserved and the new pair
joins the node's contents, up to permutation. -/
theorem insertNonFull_ok (k : Int) (v : List Nat) :
    ∀ (h : Nat) (n : BNode), n.height ≤ h → BWF n →
      BWF (n.insertNonFull k v) ∧
      ((n.insertNonFull k v).contents).Perm ((k, v) :: n.contents) := by
  intro h
  induction h with
  | zero =>
    intro n hh hwf
    cases n with
    | leaf ks vs => exact insertNonFull_leaf_ok ks vs k v (BWF_leaf_len hwf)
    | internal ks cs => exact absurd hh (by simp [BNode.height])
  | succ h ih =>
    intro n hh hwf
    cases n with
    | leaf ks vs => exact insertNonFull_leaf_ok ks vs k v (BWF_leaf_len hwf)
    | internal ks cs =>
      have hlen : cs.length = ks.length + 1 := BWF_internal_len hwf
      have hmem : ∀ c ∈ cs, BWF c := BWF_internal_mem hwf
      rw [insertNonFull_internal_eq]
      have hIle : (ks.takeWhile (fun x => decide (x ≤ k))).length ≤ ks.length :=
        (List.takeWhile_sublist _).length_le
      generalize hI : (ks.takeWhile (fun x => decide (x ≤ k))).length = i
      rw [hI] at hIle
      have hilt : i < cs.length := by omega
      by_cases h74 : (cs.getD i (BNode.leaf [] [])).keysLen = 74
      · rw [if_pos h74]
        generalize hp : splitChildKC ks cs i = p
        have hp2len : p.2.length = cs.length + 1 := by
          rw [← hp]; exact splitChildKC_len2 ks cs i hilt
        have hp1len : p.1.length = ks.length + 1 := by
          rw [← hp]; exact splitChildKC_len1 ks cs i hIle
        have hpwf : ∀ c ∈ p.2, BWF c := by
          rw [← hp]; exact splitChildKC_wf ks cs i hilt h74 hmem
        have hpc : contentsList p.2 = contentsList cs := by
          rw [← hp]; exact splitChildKC_contents ks cs i hilt hmem
        generalize hi2 : (if p.1.getD i 0 ≤ k then i + 1 else i) = i2
        have hi2le : i2 ≤ i + 1 := by
          rw [← hi2]; split <;> omega
        have hi2lt : i2 < p.2.length := by omega
        have hheight : (p.2.getD i2 (BNode.leaf [] [])).height ≤ h := by
          have h1 := height_splitChildKC_getD_lt ks cs i i2
          rw [hp] at h1
          have h2 : (BNode.internal ks cs).height ≤ h + 1 := hh
          omega
        have hcwf : BWF (p.2.getD i2 (BNode.leaf [] [])) := hpwf _ (getD_mem _ hi2lt)
        have IH := ih (p.2.getD i2 (BNode.leaf [] [])) hheight hcwf
        refine ⟨BWF.internal _ _ ?_ ?_, ?_⟩
        · rw [List.length_set]; omega
        · intro c hc
          rcases mem_of_mem_set hc with rfl | hc2
          · exact IH.1
          · exact hpwf _ hc2
        · simp only [BNode.contents]
          rw [contentsList_set (BNode.leaf [] []) p.2 i2 _ hi2lt]
          have hdec : contentsList cs = contentsList (p.2.take i2)
              ++ (p.2.getD i2 (BNode.leaf [] [])).contents
              ++ contentsList (p.2.drop (i2 + 1)) := by
            rw [← hpc]; exact contentsList_decompose (BNode.leaf [] []) p.2 i2 hi2lt
          rw [hdec]
          exact perm_sandwich _ _ _ IH.2
      · rw [if_neg h74]
        have hheight : (cs.getD i (BNode.leaf [] [])).height ≤ h := by
          have h1 := height_getD_lt ks cs i
          have h2 : (BNode.internal ks cs).height ≤ h + 1 := hh
          omega
        have IH := ih (cs.getD i (BNode.leaf [] [])) hheight (hmem _ (getD_mem _ hilt))
        refine ⟨BWF.internal _ _ ?_ ?_, ?_⟩
        · rw [List.length_set]; exact hlen
        · intro c hc
          rcases mem_of_mem_set hc with rfl | hc2
          · exact IH.1
          · exact hmem _ hc2
        · simp only [BNode.contents]
          rw [contentsList_set (BNode.leaf [] []) cs i _ hilt]
          rw [contentsList_decompose (BNode.leaf [] []) cs i hilt]
          exact perm_sandwich _ _ _ IH.2

/-- `__setitem__` (root split included) preserves well-formedness and adds exactly the new
pair to the tree's contents. -/
theorem setitem_ok (t : BPlusTree) (k : Int) (v : List Nat) (hwf : BWF t.root) :
    BWF (t.setitem k v).root ∧
    ((t.setitem k v).root.contents).Perm ((k, v) :: t.root.contents) := by
  have hroot : (t.setitem k v).root =
      (if t.root.keysLen = 74 then
        BNode.internal (splitChildKC [] [t.root] 0).1 (splitChildKC [] [t.root] 0).2
      else t.root).insertNonFull k v := rfl
  rw [hroot]
  by_cases h74 : t.root.keysLen = 74
  · rw [if_pos h74]
    have hone : (0 : Nat) < [t.root].length := by simp
    have hallwf : ∀ c ∈ [t.root], BWF c := by
      intro c hc
      rw [List.mem_singleton] at hc
      rw [hc]
      exact hwf
    have h2len := splitChildKC_len2 [] [t.root] 0 hone
    have h1len := splitChildKC_len1 [] [t.root] 0 (by simp)
    have hwf2 := splitChildKC_wf [] [t.root] 0 hone h74 hallwf
    have hcont := splitChildKC_contents [] [t.root] 0 hone hallwf
    have hrwf : BWF (BNode.internal (splitChildKC [] [t.root] 0).1
        (splitChildKC [] [t.root] 0).2) := by
      refine BWF.internal _ _ ?_ hwf2
      simp at h2len h1len
      omega
    have h := insertNonFull_ok k v (BNode.internal (splitChildKC [] [t.root] 0).1
      (splitChildKC [] [t.root] 0).2).height _ (le_refl _) hrwf
    refine ⟨h.1, ?_⟩
    have heq : (BNode.internal (splitChildKC [] [t.root] 0).1
        (splitChildKC [] [t.root] 0).2).contents = t.root.contents := by
      rw [BNode.contents, hcont, contentsList, contentsList, List.append_nil]
    rw [heq] at h
    exact h.2
  · rw [if_neg h74]
    exact insertNonFull_ok k v t.root.height t.root (le_refl _) hwf

/-- Folding `__setitem__` over a pair list preserves well-formedness and prepends exactly
those pairs to the contents. -/
theorem foldl_setitem_ok :
    ∀ (pairs : List (Int × List Nat)) (t : BPlusTree), BWF t.root →
      BWF ((pairs.foldl (fun acc p => acc.setitem p.1 p.2) t).root) ∧
      (((pairs.foldl (fun acc p => acc.setitem p.1 p.2) t).root.contents).Perm
        (pairs ++ t.root.contents))
  | [], t, hwf => ⟨hwf, by simp⟩
  | q :: rest, t, hwf => by
    rw [List.foldl_cons]
    have h1 := setitem_ok t q.1 q.2 hwf
    have h2 := foldl_setitem_ok rest (t.setitem q.1 q.2) h1.1
    refine ⟨h2.1, ?_⟩
    refine h2.2.trans ?_
    refine (List.Perm.append_left rest h1.2).trans ?_
    exact List.perm_middle

/-- A successful `batch_insert` is exactly the in-order fold of `__setitem__` over the
batch. -/
theorem batch_insert_eq_fold (t : BPlusTree) (pairs : List (Int × List Nat))
    (t2 : BPlusTree) (h : t.batch_insert pairs = some t2) :
    t2 = pairs.foldl (fun acc p => acc.setitem p.1 p.2) t := by
  unfold BPlusTree.batch_insert at h
  by_cases hs : 0 < t.size
  · rw [if_pos hs] at h
    cases pairs with
    | nil =>
      cases hmk : t.root.maxKey with
      | none => rw [hmk] at h; exact Option.noConfusion h
      | some m => rw [hmk] at h; exact Option.noConfusion h
    | cons q rest =>
      obtain ⟨k0, v0⟩ := q
      cases hmk : t.root.maxKey with
      | none => rw [hmk] at h; exact Option.noConfusion h
      | some m =>
        rw [hmk] at h
        have h2 : (if k0 ≤ m then none
            else some (((k0, v0) :: rest).foldl (fun acc p => acc.setitem p.1 p.2) t))
            = some t2 := h
        by_cases hk : k0 ≤ m
        · rw [if_pos hk] at h2; exact Option.noConfusion h2
        · rw [if_neg hk] at h2; exact (Option.some_inj.mp h2).symm
  · rw [if_neg hs] at h
    exact (Option.some_inj.mp h).symm

/-- On a non-empty tree, `batch_insert` raises exactly when the first key of the batch is
not strictly above the current maximum key. -/
theorem batch_insert_none_iff (t : BPlusTree) (k : Int) (v : List Nat)
    (rest : List (Int × List Nat)) (m : Int) (hs : 0 < t.size)
    (hm : t.root.maxKey = some m) :
    (t.batch_insert ((k, v) :: rest) = none) ↔ k ≤ m := by
  have hred : t.batch_insert ((k, v) :: rest) =
      (if k ≤ m then none
       else some (((k, v) :: rest).foldl (fun acc p => acc.setitem p.1 p.2) t)) := by
    unfold BPlusTree.batch_insert
    rw [if_pos hs, hm]
  rw [hred]
  by_cases hk : k ≤ m
  · rw [if_pos hk]
    simp [hk]
  · rw [if_neg hk]
    simp [hk]

/-- The 5000-element slices of `range(0, len(cache), 5000)` cover the cache exactly. -/
theorem chunks5000_flatten (l : List (Int × List Nat)) : (chunks5000 l).flatten = l := by
  by_cases h : l = []
  · subst h
    rw [chunks5000]
    simp
  · rw [chunks5000, if_neg h, List.flatten_cons, chunks5000_flatten (l.drop 5000),
      List.take_append_drop]
termination_by l.length
decreasing_by
  have hne : l.length ≠ 0 := fun h0 => h (List.length_eq_zero.mp h0)
  simp only [List.length_drop]
  omega

/-- Folding the batch loop (with per-key fallback) over any chunk list preserves
well-formedness and inserts exactly the flattened chunks. -/
theorem foldl_chunks_ok :
    ∀ (chs : List (List (Int × List Nat))) (t : BPlusTree), BWF t.root →
      BWF ((chs.foldl (fun acc batch =>
          match acc.batch_insert batch with
          | some t2 => t2
          | none => batch.foldl (fun a p => a.setitem p.1 p.2) acc) t).root) ∧
      (((chs.foldl (fun acc batch =>
          match acc.batch_insert batch with
          | some t2 => t2
          | none => batch.foldl (fun a p => a.setitem p.1 p.2) acc) t).root.contents).Perm
        (chs.flatten ++ t.root.contents))
  | [], t, hwf => ⟨hwf, by simp⟩
  | b :: chs, t, hwf => by
    simp only [List.foldl_cons]
    have hfold := foldl_setitem_ok b t hwf
    have htail := fun (u : BPlusTree) (hu : BWF u.root) => foldl_chunks_ok chs u hu
    have hside : ∀ u : BPlusTree, BWF u.root →
        (u.root.contents).Perm (b ++ t.root.contents) →
        BWF ((chs.foldl (fun acc batch =>
          match acc.batch_insert batch with
          | some t2 => t2
          | none => batch.foldl (fun a p => a.setitem p.1 p.2) acc) u).root) ∧
        (((chs.foldl (fun acc batch =>
          match acc.batch_insert batch with
          | some t2 => t2
          | none => batch.foldl (fun a p => a.setitem p.1 p.2) acc) u).root.contents).Perm
          ((b :: chs).flatten ++ t.root.contents)) := by
      intro u hu hperm
      have hrec := htail u hu
      refine ⟨hrec.1, ?_⟩
      refine hrec.2.trans ?_
      refine (List.Perm.append_left chs.flatten hperm).trans ?_
      have e1 : chs.flatten ++ (b ++ t.root.contents)
          = (chs.flatten ++ b) ++ t.root.contents := by rw [List.append_assoc]
      have e2 : (b :: chs).flatten ++ t.root.contents
          = (b ++ chs.flatten) ++ t.root.contents := by rw [List.flatten_cons]
      rw [e1, e2]
      exact List.Perm.append_right _ List.perm_append_comm
    cases hb : t.batch_insert b with
    | some t2 =>
      have ht2 := batch_insert_eq_fold t b t2 hb
      subst ht2
      exact hside _ hfold.1 hfold.2
    | none =>
      exact hside _ hfold.1 hfold.2

/-- The whole flush loop of `_flush_cache_for_column`: the staged cache joins the tree's
contents, whether or not any batch hits the unordered-batch error. -/
theorem flushColTree_ok (t : BPlusTree) (cache : List (Int × List Nat))
    (hwf : BWF t.root) :
    BWF ((flushColTree t cache).root) ∧
    ((flushColTree t cache).root.contents).Perm (cache ++ t.root.contents) := by
  rw [flushColTree]
  have h := foldl_chunks_ok (chunks5000 cache) t hwf
  rw [chunks5000_flatten] at h
  exact h

/-- Python's stable insertion into a sorted prefix keeps the same elements. -/
theorem insertByKey_perm (x : Int × List Nat) :
    ∀ l : List (Int × List Nat), (insertByKey x l).Perm (x :: l)
  | [] => List.Perm.refl _
  | y :: ys => by
    rw [insertByKey]
    by_cases hy : y.1 < x.1
    · rw [if_pos hy]
      exact ((insertByKey_perm x ys).cons y).trans (List.Perm.swap x y ys)
    · rw [if_neg hy]

/-- `sorted(..., key=lambda x: x[0])` keeps the same elements. -/
theorem pySortedByKey_perm : ∀ l : List (Int × List Nat), (pySortedByKey l).Perm l
  | [] => List.Perm.refl _
  | x :: xs =>
    (insertByKey_perm x (pySortedByKey xs)).trans ((pySortedByKey_perm xs).cons x)

/-- `_flush_cache_for_column` empties both staging buffers of the column and pushes all
their pairs — and nothing else — into the column's B+ tree. -/
theorem flush_col_contents (s : IndexState) (col : Nat)
    (hb1 : col < s.unsortedCache.length) (hb2 : col < s.insertCache.length)
    (hb3 : col < s.trees.length)
    (hwf : BWF ((s.trees.getD col BPlusTree.empty).root)) :
    (((flush_cache_for_column s col).trees.getD col BPlusTree.empty).root.contents).Perm
      (s.insertCache.getD col [] ++ s.unsortedCache.getD col []
        ++ ((s.trees.getD col BPlusTree.empty).root.contents)) ∧
    (flush_cache_for_column s col).unsortedCache.getD col [] = [] ∧
    (flush_cache_for_column s col).insertCache.getD col [] = [] := by
  rw [flush_cache_for_column]
  by_cases hu : (s.unsortedCache.getD col []).isEmpty
  · rw [if_pos hu]
    have hunil : s.unsortedCache.getD col [] = [] := List.isEmpty_iff.mp hu
    by_cases hc : (s.insertCache.getD col []).isEmpty
    · rw [if_pos hc]
      have hinil : s.insertCache.getD col [] = [] := List.isEmpty_iff.mp hc
      refine ⟨?_, hunil, hinil⟩
      rw [hunil, hinil]
      simpa using List.Perm.refl ((s.trees.getD col BPlusTree.empty).root.contents)
    · rw [if_neg hc]
      refine ⟨?_, hunil, getD_set_self _ _ _ _ hb2⟩
      rw [getD_set_self _ _ _ _ hb3, hunil, List.append_nil]
      exact (flushColTree_ok _ _ hwf).2
  · rw [if_neg hu]
    have hune : s.unsortedCache.getD col [] ≠ [] :=
      fun hcon => by rw [hcon] at hu; simp at hu
    by_cases hc : ((s.insertCache.set col
        (if (s.insertCache.getD col []).isEmpty then pySortedByKey (s.unsortedCache.getD col [])
         else merge_sorted_lists (s.insertCache.getD col [])
           (pySortedByKey (s.unsortedCache.getD col [])))).getD col []).isEmpty
    · exfalso
      rw [getD_set_self _ _ _ _ hb2] at hc
      by_cases hi : (s.insertCache.getD col []).isEmpty
      · rw [if_pos hi] at hc
        have hnil := List.isEmpty_iff.mp hc
        have hperm := pySortedByKey_perm (s.unsortedCache.getD col [])
        rw [hnil] at hperm
        exact hune (List.nil_perm.mp hperm)
      · rw [if_neg hi] at hc
        exact merge_sorted_lists_ne_nil _ _
          (fun h0 => hi (by rw [h0]; rfl)) (List.isEmpty_iff.mp hc)
    · rw [if_neg hc]
      have hCperm : (if (s.insertCache.getD col []).isEmpty
            then pySortedByKey (s.unsortedCache.getD col [])
            else merge_sorted_lists (s.insertCache.getD col [])
              (pySortedByKey (s.unsortedCache.getD col []))).Perm
          (s.insertCache.getD col [] ++ s.unsortedCache.getD col []) := by
        by_cases hi : (s.insertCache.getD col []).isEmpty
        · rw [if_pos hi, List.isEmpty_iff.mp hi, List.nil_append]
          exact pySortedByKey_perm _
        · rw [if_neg hi]
          exact (merge_sorted_lists_perm _ _).trans
            (List.Perm.append_left _ (pySortedByKey_perm _))
      refine ⟨?_, getD_set_self _ _ _ _ hb1,
        getD_set_self _ _ _ _ (by rw [List.length_set]; exact hb2)⟩
      rw [getD_set_self _ _ _ _ hb3, getD_set_self _ _ _ _ hb2]
      refine (flushColTree_ok _ _ hwf).2.trans ?_
      exact List.Perm.append_right _ hCperm

/-- C5: `BPlusTree.batch_insert(pairs)` on a non-empty tree fails with the unordered-batch
`ValueError` if and only if the first key of `pairs` is not strictly greater than the tree's
current `max_key()`, inserting nothing in that case (the raise precedes every insertion, so
the failing call returns `none` and no new tree); a successful call inserts exactly the
batch, in order; and the error never escapes the `Index`: `_flush_cache_for_column` catches
it and falls back to inserting every pair of the offending batch individually, so after a
flush both staging buffers of the column are empty and every staged `(key, rid)` pair — and
nothing else — has joined the column's B+ tree. -/
theorem C5_batch_insert_fallback :
    (∀ (t : BPlusTree) (k : Int) (v : List Nat) (rest : List (Int × List Nat)) (m : Int),
      0 < t.size → t.root.maxKey = some m →
      ((t.batch_insert ((k, v) :: rest) = none) ↔ k ≤ m)) ∧
    (∀ (t : BPlusTree) (pairs : List (Int × List Nat)) (t2 : BPlusTree),
      t.batch_insert pairs = some t2 →
      t2 = pairs.foldl (fun acc p => acc.setitem p.1 p.2) t) ∧
    (∀ (s : IndexState) (col : Nat),
      col < s.unsortedCache.length → col < s.insertCache.length → col < s.trees.length →
      BWF ((s.trees.getD col BPlusTree.empty).root) →
      (((flush_cache_for_column s col).trees.getD col BPlusTree.empty).root.contents).Perm
        (s.insertCache.getD col [] ++ s.unsortedCache.getD col []
          ++ ((s.trees.getD col BPlusTree.empty).root.contents)) ∧
      (flush_cache_for_column s col).unsortedCache.getD col [] = [] ∧
      (flush_cache_for_column s col).insertCache.getD col [] = []) :=
  ⟨batch_insert_none_iff, batch_insert_eq_fold, flush_col_contents⟩

/-- Witness for C5: a one-key tree rejects a batch starting at that same key; an empty tree
accepts a batch as the plain insertion fold; flushing the concrete two-buffer index pushes
both staged pairs into column 0's tree and clears both buffers. -/
theorem C5_batch_insert_fallback_witness :
    (((⟨BNode.leaf [1] [[2]], 1⟩ : BPlusTree).batch_insert [((1 : Int), [3])] = none)
      ↔ (1 : Int) ≤ 1) ∧
    (([((1 : Int), ([2] : List Nat))].foldl (fun acc p => acc.setitem p.1 p.2) BPlusTree.empty)
      = [((1 : Int), ([2] : List Nat))].foldl (fun acc p => acc.setitem p.1 p.2)
          BPlusTree.empty) ∧
    ((((flush_cache_for_column c5state 0).trees.getD 0 BPlusTree.empty).root.contents).Perm
      (c5state.insertCache.getD 0 [] ++ c5state.unsortedCache.getD 0 []
        ++ ((c5state.trees.getD 0 BPlusTree.empty).root.contents)) ∧
     (flush_cache_for_column c5state 0).unsortedCache.getD 0 [] = [] ∧
     (flush_cache_for_column c5state 0).insertCache.getD 0 [] = []) :=
  ⟨C5_batch_insert_fallback.1 ⟨BNode.leaf [1] [[2]], 1⟩ 1 [3] [] 1 (by decide)
      (by simp [BNode.maxKey]),
    C5_batch_insert_fallback.2.1 BPlusTree.empty [((1 : Int), ([2] : List Nat))] _ rfl,
    C5_batch_insert_fallback.2.2 c5state 0 (by decide) (by decide) (by decide)
      (BWF.leaf [] [] rfl)⟩

/-- C2: on a fresh 3-column table, after `insert(1, 10, 20)`, `update(1, None, 99, None)`
and `update(1, None, None, 77)`: `select(1, 0, [1,1,1])` reads the newest tail (one hop of
`indirection` from the base) and yields `[1, 99, 77]`; `select_version(1, 0, [1,1,1], -1)`
walks `|−1 − 2| = 3` hops (base → t2 → t1) and yields `[1, 99, 20]` from `t1`; and
`select_version(1, 0, [1,1,1], -2)` walks up to `|−2 − 2| = 4` hops but stops early at the
original-copy tail `t0`, whose `indirection` self-loops at the base, yielding `[1, 10, 20]`.
The hypotheses keep the first tail page unfilled and the merge threshold unreached. -/
theorem C2_select_version_chain (CAPACITY PAGE_RANGE_SIZE MERGE_THRESH : Nat)
    (mergeFn : TableState → Nat → TableState)
    (hcap : 3 ≤ CAPACITY) (hmt : 2 < MERGE_THRESH) :
    ∃ (s1 s2 s3 : TableState) (r1 r2 r3 : Record),
      Query.insert CAPACITY PAGE_RANGE_SIZE (TableState.fresh 3)
        [some 1, some 10, some 20] = (s1, true) ∧
      Query.update CAPACITY MERGE_THRESH mergeFn s1 (some 1) [none, some 99, none]
        = some (s2, true) ∧
      Query.update CAPACITY MERGE_THRESH mergeFn s2 (some 1) [none, none, some 77]
        = some (s3, true) ∧
      Query.select s3 (some 1) 0 [1, 1, 1] = some (s3, some [r1]) ∧
      r1.columns = [some 1, some 99, some 77] ∧
      Query.select_version s3 (some 1) 0 [1, 1, 1] (-1) = some (s3, [r2]) ∧
      r2.rid = tailRid 1 ∧ r2.columns = [some 1, some 99, some 20] ∧
      Query.select_version s3 (some 1) 0 [1, 1, 1] (-2) = some (s3, [r3]) ∧
      r3.rid = tailRid 0 ∧ r3.columns = [some 1, some 10, some 20] := by
  have hcap0 : 0 < CAPACITY := by omega
  have hcap1 : 1 < CAPACITY := by omega
  have hcap2 : 2 < CAPACITY := by omega
  have hmt1 : ¬(MERGE_THRESH ≤ 1) := by omega
  have hmt2 : ¬(MERGE_THRESH ≤ 2) := by omega
  have hex : existsKey (IndexState.fresh 3) 0 (some 1) = (IndexState.fresh 3, false) := by
    unfold existsKey
    simp [IndexState.fresh, dictGet, BPlusTree.empty, BPlusTree.has_key, BNode.search]
  have hex2 : existsKey (TableState.fresh 3).idx 0
      ([some (1 : Int), some 10, some 20].headD none) = ((TableState.fresh 3).idx, false) :=
    hex
  have hb0 : baseRid 0 = ("b0") := by decide
  have ht0 : tailRid 0 = ("t0") := by decide
  have ht1 : tailRid 1 = ("t1") := by decide
  have ht2 : tailRid 2 = ("t2") := by decide
  have h1 : Query.insert CAPACITY PAGE_RANGE_SIZE (TableState.fresh 3)
      [some 1, some 10, some 20] =
      (⟨add_record (IndexState.fresh 3)
          ⟨("b0"), ("b0"), ("b0"), 0, [0, 0, 0], [some 1, some 10, some 20]⟩,
        [(("b0"), (0, ⟨("b0"), ("b0"), ("b0"), 0, [0, 0, 0], [some 1, some 10, some 20]⟩))],
        [[[("b0")]]], [[[]]], 1, 0, [0], 0⟩, true) := by
    unfold Query.insert
    rw [hex2]
    simp [TableState.fresh, sdictSet, hcap0, hb0, List.replicate]
  have hpk1 : dictGet (add_record (IndexState.fresh 3)
      ⟨("b0"), ("b0"), ("b0"), 0, [0, 0, 0], [some 1, some 10, some 20]⟩).pkCache 1
      = some [98, 48] := by decide
  have hdec : decodeRid [98, 48] = ("b0") := by decide
  have hloc := locate_pk_hit (add_record (IndexState.fresh 3)
      ⟨("b0"), ("b0"), ("b0"), 0, [0, 0, 0], [some 1, some 10, some 20]⟩) 1 [98, 48] hpk1
  have hgl0 : ([([] : List String)]).getLast? = some [] := by decide
  have ha1 : appendToLane CAPACITY [[]] (("t0") : String) = [[("t0")]] := by
    unfold appendToLane
    simp [hgl0, hcap0]
  have hgl1 : ([[("t0")]] : List (List String)).getLast? = some [("t0")] := by decide
  have ha2 : appendToLane CAPACITY [[("t0")]] (("t1") : String)
      = [[("t0"), ("t1")]] := by
    unfold appendToLane
    simp [hgl1, hcap1]
  have hgl2 : ([[("t0"), ("t1")]] : List (List String)).getLast?
      = some [("t0"), ("t1")] := by decide
  have ha3 : appendToLane CAPACITY [[("t0"), ("t1")]] (("t2") : String)
      = [[("t0"), ("t1"), ("t2")]] := by
    unfold appendToLane
    simp [hgl2, hcap2]
  have h2 : Query.update CAPACITY MERGE_THRESH mergeFn
      (⟨add_record (IndexState.fresh 3)
          ⟨("b0"), ("b0"), ("b0"), 0, [0, 0, 0], [some 1, some 10, some 20]⟩,
        [(("b0"), (0, ⟨("b0"), ("b0"), ("b0"), 0, [0, 0, 0], [some 1, some 10, some 20]⟩))],
        [[[("b0")]]], [[[]]], 1, 0, [0], 0⟩ : TableState) (some 1) [none, some 99, none]
      = some ((⟨add_record (IndexState.fresh 3)
          ⟨("b0"), ("b0"), ("b0"), 0, [0, 0, 0], [some 1, some 10, some 20]⟩,
        [(("b0"), (0, ⟨("b0"), ("t1"), ("b0"), 0, [0, 1, 0], [some 1, some 10, some 20]⟩)),
         (("t0"), (0, ⟨("b0"), ("b0"), ("t0"), 0, [0, 1, 0], [some 1, some 10, some 20]⟩)),
         (("t1"), (0, ⟨("b0"), ("t0"), ("t1"), 0, [0, 1, 0], [some 1, some 99, some 20]⟩))],
        [[[("b0")]]], [[[("t0"), ("t1")]]], 1, 2, [1], 0⟩ : TableState), true) := by
    simp only [Query.update, hloc, hdec, writeTail, bumpUnmerged]
    simp [sdictGet, sdictSet, ht0, ht1, ha1, ha2, hmt1, List.range_succ]
  have h3 : Query.update CAPACITY MERGE_THRESH mergeFn
      (⟨add_record (IndexState.fresh 3)
          ⟨("b0"), ("b0"), ("b0"), 0, [0, 0, 0], [some 1, some 10, some 20]⟩,
        [(("b0"), (0, ⟨("b0"), ("t1"), ("b0"), 0, [0, 1, 0], [some 1, some 10, some 20]⟩)),
         (("t0"), (0, ⟨("b0"), ("b0"), ("t0"), 0, [0, 1, 0], [some 1, some 10, some 20]⟩)),
         (("t1"), (0, ⟨("b0"), ("t0"), ("t1"), 0, [0, 1, 0], [some 1, some 99, some 20]⟩))],
        [[[("b0")]]], [[[("t0"), ("t1")]]], 1, 2, [1], 0⟩ : TableState) (some 1)
        [none, none, some 77]
      = some ((⟨add_record (IndexState.fresh 3)
          ⟨("b0"), ("b0"), ("b0"), 0, [0, 0, 0], [some 1, some 10, some 20]⟩,
        [(("b0"), (0, ⟨("b0"), ("t2"), ("b0"), 0, [0, 1, 1], [some 1, some 10, some 20]⟩)),
         (("t0"), (0, ⟨("b0"), ("b0"), ("t0"), 0, [0, 1, 0], [some 1, some 10, some 20]⟩)),
         (("t1"), (0, ⟨("b0"), ("t0"), ("t1"), 0, [0, 1, 0], [some 1, some 99, some 20]⟩)),
         (("t2"), (0, ⟨("b0"), ("t1"), ("t2"), 0, [0, 1, 1], [some 1, some 99, some 77]⟩))],
        [[[("b0")]]], [[[("t0"), ("t1"), ("t2")]]], 1, 3, [2], 0⟩ : TableState), true) := by
    simp only [Query.update, hloc, hdec, writeTail, bumpUnmerged]
    simp [sdictGet, sdictSet, ht2, ha3, hmt2, List.range_succ]
  have hsplit : ("b0").splitOn (",") = [("b0")] := by
    rw [String.splitOn]
    rw [if_neg (by decide)]
    rw [String.splitOnAux, if_neg (by decide), if_neg (by decide)]
    rw [String.splitOnAux, if_neg (by decide), if_neg (by decide)]
    rw [String.splitOnAux, if_pos (by decide)]
    decide
  have h4 : Query.select
      (⟨add_record (IndexState.fresh 3)
          ⟨("b0"), ("b0"), ("b0"), 0, [0, 0, 0], [some 1, some 10, some 20]⟩,
        [(("b0"), (0, ⟨("b0"), ("t2"), ("b0"), 0, [0, 1, 1], [some 1, some 10, some 20]⟩)),
         (("t0"), (0, ⟨("b0"), ("b0"), ("t0"), 0, [0, 1, 0], [some 1, some 10, some 20]⟩)),
         (("t1"), (0, ⟨("b0"), ("t0"), ("t1"), 0, [0, 1, 0], [some 1, some 99, some 20]⟩)),
         (("t2"), (0, ⟨("b0"), ("t1"), ("t2"), 0, [0, 1, 1], [some 1, some 99, some 77]⟩))],
        [[[("b0")]]], [[[("t0"), ("t1"), ("t2")]]], 1, 3, [2], 0⟩ : TableState)
      (some 1) 0 [1, 1, 1] =
      some ((⟨add_record (IndexState.fresh 3)
          ⟨("b0"), ("b0"), ("b0"), 0, [0, 0, 0], [some 1, some 10, some 20]⟩,
        [(("b0"), (0, ⟨("b0"), ("t2"), ("b0"), 0, [0, 1, 1], [some 1, some 10, some 20]⟩)),
         (("t0"), (0, ⟨("b0"), ("b0"), ("t0"), 0, [0, 1, 0], [some 1, some 10, some 20]⟩)),
         (("t1"), (0, ⟨("b0"), ("t0"), ("t1"), 0, [0, 1, 0], [some 1, some 99, some 20]⟩)),
         (("t2"), (0, ⟨("b0"), ("t1"), ("t2"), 0, [0, 1, 1], [some 1, some 99, some 77]⟩))],
        [[[("b0")]]], [[[("t0"), ("t1"), ("t2")]]], 1, 3, [2], 0⟩ : TableState),
        some [⟨("b0"), ("t1"), ("t2"), 0, [0, 1, 1], [some 1, some 99, some 77]⟩]) := by
    simp only [Query.select, hloc, hdec]
    simp [hsplit, sdictGet, projectCols]
  have h5 : Query.select_version
      (⟨add_record (IndexState.fresh 3)
          ⟨("b0"), ("b0"), ("b0"), 0, [0, 0, 0], [some 1, some 10, some 20]⟩,
        [(("b0"), (0, ⟨("b0"), ("t2"), ("b0"), 0, [0, 1, 1], [some 1, some 10, some 20]⟩)),
         (("t0"), (0, ⟨("b0"), ("b0"), ("t0"), 0, [0, 1, 0], [some 1, some 10, some 20]⟩)),
         (("t1"), (0, ⟨("b0"), ("t0"), ("t1"), 0, [0, 1, 0], [some 1, some 99, some 20]⟩)),
         (("t2"), (0, ⟨("b0"), ("t1"), ("t2"), 0, [0, 1, 1], [some 1, some 99, some 77]⟩))],
        [[[("b0")]]], [[[("t0"), ("t1"), ("t2")]]], 1, 3, [2], 0⟩ : TableState)
      (some 1) 0 [1, 1, 1] (-1) =
      some ((⟨add_record (IndexState.fresh 3)
          ⟨("b0"), ("b0"), ("b0"), 0, [0, 0, 0], [some 1, some 10, some 20]⟩,
        [(("b0"), (0, ⟨("b0"), ("t2"), ("b0"), 0, [0, 1, 1], [some 1, some 10, some 20]⟩)),
         (("t0"), (0, ⟨("b0"), ("b0"), ("t0"), 0, [0, 1, 0], [some 1, some 10, some 20]⟩)),
         (("t1"), (0, ⟨("b0"), ("t0"), ("t1"), 0, [0, 1, 0], [some 1, some 99, some 20]⟩)),
         (("t2"), (0, ⟨("b0"), ("t1"), ("t2"), 0, [0, 1, 1], [some 1, some 99, some 77]⟩))],
        [[[("b0")]]], [[[("t0"), ("t1"), ("t2")]]], 1, 3, [2], 0⟩ : TableState),
        [⟨("b0"), ("t0"), ("t1"), 0, [0, 1, 0], [some 1, some 99, some 20]⟩]) := by
    simp only [Query.select_version, hloc, hdec]
    simp [hsplit, svWalk, sdictGet, projectCols]
  have h6 : Query.select_version
      (⟨add_record (IndexState.fresh 3)
          ⟨("b0"), ("b0"), ("b0"), 0, [0, 0, 0], [some 1, some 10, some 20]⟩,
        [(("b0"), (0, ⟨("b0"), ("t2"), ("b0"), 0, [0, 1, 1], [some 1, some 10, some 20]⟩)),
         (("t0"), (0, ⟨("b0"), ("b0"), ("t0"), 0, [0, 1, 0], [some 1, some 10, some 20]⟩)),
         (("t1"), (0, ⟨("b0"), ("t0"), ("t1"), 0, [0, 1, 0], [some 1, some 99, some 20]⟩)),
         (("t2"), (0, ⟨("b0"), ("t1"), ("t2"), 0, [0, 1, 1], [some 1, some 99, some 77]⟩))],
        [[[("b0")]]], [[[("t0"), ("t1"), ("t2")]]], 1, 3, [2], 0⟩ : TableState)
      (some 1) 0 [1, 1, 1] (-2) =
      some ((⟨add_record (IndexState.fresh 3)
          ⟨("b0"), ("b0"), ("b0"), 0, [0, 0, 0], [some 1, some 10, some 20]⟩,
        [(("b0"), (0, ⟨("b0"), ("t2"), ("b0"), 0, [0, 1, 1], [some 1, some 10, some 20]⟩)),
         (("t0"), (0, ⟨("b0"), ("b0"), ("t0"), 0, [0, 1, 0], [some 1, some 10, some 20]⟩)),
         (("t1"), (0, ⟨("b0"), ("t0"), ("t1"), 0, [0, 1, 0], [some 1, some 99, some 20]⟩)),
         (("t2"), (0, ⟨("b0"), ("t1"), ("t2"), 0, [0, 1, 1], [some 1, some 99, some 77]⟩))],
        [[[("b0")]]], [[[("t0"), ("t1"), ("t2")]]], 1, 3, [2], 0⟩ : TableState),
        [⟨("b0"), ("b0"), ("t0"), 0, [0, 1, 0], [some 1, some 10, some 20]⟩]) := by
    simp only [Query.select_version, hloc, hdec]
    simp [hsplit, svWalk, sdictGet, projectCols]
  exact ⟨_, _, _, _, _, _, h1, h2, h3, h4, rfl, h5, by decide, rfl, h6, by decide, rfl⟩

/-- Witness for C2: the scenario at page capacity 512, pagerange size 16, merge threshold
100000 and the no-op merge. -/
theorem C2_select_version_chain_witness :
    (3 ≤ 512) ∧ (2 < 100000) ∧
    (∃ (s1 s2 s3 : TableState) (r1 r2 r3 : Record),
      Query.insert 512 16 (TableState.fresh 3) [some 1, some 10, some 20] = (s1, true) ∧
      Query.update 512 100000 mergeNoop s1 (some 1) [none, some 99, none]
        = some (s2, true) ∧
      Query.update 512 100000 mergeNoop s2 (some 1) [none, none, some 77]
        = some (s3, true) ∧
      Query.select s3 (some 1) 0 [1, 1, 1] = some (s3, some [r1]) ∧
      r1.columns = [some 1, some 99, some 77] ∧
      Query.select_version s3 (some 1) 0 [1, 1, 1] (-1) = some (s3, [r2]) ∧
      r2.rid = tailRid 1 ∧ r2.columns = [some 1, some 99, some 20] ∧
      Query.select_version s3 (some 1) 0 [1, 1, 1] (-2) = some (s3, [r3]) ∧
      r3.rid = tailRid 0 ∧ r3.columns = [some 1, some 10, some 20]) :=
  ⟨by decide, by decide,
    C2_select_version_chain 512 16 100000 mergeNoop (by decide) (by decide)⟩

end LStore
